import Mathlib

set_option maxHeartbeats 1000000

/-!
Verification development for the gammaverse repository.

The heart of the development is a shallow embedding of the PDF
content-stream surgery in `src/remove_gamma_logo_pdf.py`
(`strip_draw_commands`, `scrub_gamma_images`, `find_gamma_xobjects`,
`should_remove_annotation`, `process_pdf`), of the PPTX layout scrub in
`src/remove_gamma_logo.py`, and of `src/unlock_pdf.py`.

Content-stream operators are modelled by the inductive type `Op`:
the graphics-state push `q`, the pop `Q`, a drawing invocation
`Do name`, and any other operator `other tag`.  The scan loops of
`strip_draw_commands` index into the Python list `ops`; the embedding
mirrors this with `opAt` (list indexing) and explicit index arithmetic.
The `while` loops are realised as structural recursions: the backward
scan counts its index down, the forward scan and the main loop carry the
number of remaining steps (the main loop additionally takes fuel
`2 * ops.length + 1`, an upper bound on its iteration count, so that the
whole function is a structural, executable definition).
-/

/-- A single content-stream operator, as `ContentStream.operations` yields
them: the save `q`, the restore `Q`, a drawing call `Do` with the name of
the XObject it draws, or any other operator (irrelevant to the scans). -/
inductive Op where
  | q : Op
  | Q : Op
  | doOp : String → Op
  | other : Nat → Op
deriving DecidableEq, Repr

/-- `ops[i]` of the Python loops (indices used by the code are in range;
the default is never reached there). -/
def opAt (ops : List Op) (i : Nat) : Op := ops.getD i (Op.other 0)

/-- The hit test of the main loop of `strip_draw_commands`:
`operator == b"Do" and operands and operands[0] in target_names`. -/
def isHit (targets : List String) : Op → Bool
  | Op.doOp t => targets.contains t
  | _ => false

/-- `del ops[start : end + 1]`. -/
def delSpan (ops : List Op) (s e : Nat) : List Op := ops.take s ++ ops.drop (e + 1)

/-- The backward scan of `strip_draw_commands`: from `j - 1` down to `0`,
`Q` pushes depth, a `q` at depth `0` is the removal start (its index is
returned), any other `q` pops depth.  The first argument counts how many
indices remain (`j` means index `j - 1` is examined next); `dflt` is the
value of `start` when no unmatched `q` exists, namely `i`. -/
def backAux (ops : List Op) (dflt : Nat) : Nat → Nat → Nat
  | 0, _ => dflt
  | j + 1, depth =>
    match opAt ops j with
    | Op.Q => backAux ops dflt j (depth + 1)
    | Op.q => if depth = 0 then j else backAux ops dflt j (depth - 1)
    | _ => backAux ops dflt j depth

/-- `start` as the backward walk of `strip_draw_commands` computes it for a
drawing call at index `i`. -/
def findStart (ops : List Op) (i : Nat) : Nat := backAux ops i i 0

/-- The forward scan of `strip_draw_commands`: from `k = i + 1` upward,
`end` is set to `k` at every step; `q` pushes depth and a `Q` at depth `0`
stops the scan.  The first argument is the number of list elements still
ahead (`ops.length - k`), so the recursion is structural; `e` is the
current value of `end`. -/
def fwdAux (ops : List Op) : Nat → Nat → Nat → Nat → Nat
  | 0, _, _, e => e
  | n + 1, k, depth, _ =>
    match opAt ops k with
    | Op.q => fwdAux ops n (k + 1) (depth + 1) k
    | Op.Q => if depth = 0 then k else fwdAux ops n (k + 1) (depth - 1) k
    | _ => fwdAux ops n (k + 1) depth k

/-- `end` as the forward walk of `strip_draw_commands` computes it for a
drawing call at index `i`. -/
def findEnd (ops : List Op) (i : Nat) : Nat :=
  fwdAux ops (ops.length - (i + 1)) (i + 1) 0 i

/-- The main loop of `strip_draw_commands` over the operator list: at a
drawing call of a target the enclosing span `[start, end]` is deleted, the
removal counter incremented and the loop continued at the same index `i`
(the `continue` of the source); otherwise `i` advances.  The fuel argument
only bounds the number of iterations; `strip_draw_commands` passes
`2 * ops.length + 1`, which the termination measure `2 * |ops| - i` of the
loop never exhausts. -/
def stripFuel (targets : List String) : Nat → List Op → Nat → Nat → List Op × Nat
  | 0, ops, _, removed => (ops, removed)
  | fuel + 1, ops, i, removed =>
    if i < ops.length then
      if isHit targets (opAt ops i) then
        stripFuel targets fuel
          (delSpan ops (findStart ops i) (findEnd ops i)) i (removed + 1)
      else
        stripFuel targets fuel ops (i + 1) removed
    else (ops, removed)

/-- `strip_draw_commands` on an operator list: the surviving operators and
the number of spans removed. -/
def strip_draw_commands (targets : List String) (ops : List Op) : List Op × Nat :=
  stripFuel targets (2 * ops.length + 1) ops 0 0

/-! ### Graphics-state balance

`depthRun l d` replays the list over a graphics-state stack of depth `d`:
`q` pushes, `Q` pops (and fails on an empty stack), anything else is
neutral; the result is the final depth.  `balanced` is the invariant of
the spec's data model: the stream is a well-nested sequence of `q`/`Q`
brackets. `Bal` is the same language as a grammar, convenient for
induction. -/

/-- Replay of the push/pop structure: final stack depth, `none` if some
`Q` pops an empty stack. -/
def depthRun : List Op → Nat → Option Nat
  | [], d => some d
  | o :: r, d =>
    match o with
    | Op.q => depthRun r (d + 1)
    | Op.Q => if d = 0 then none else depthRun r (d - 1)
    | _ => depthRun r d

/-- A balanced operator list: replay from depth 0 succeeds and returns to
depth 0. -/
def balanced (l : List Op) : Bool := depthRun l 0 == some 0

/-- Grammar of balanced operator lists: empty, a non-bracket operator in
front of a balanced list, or a complete `q … Q` bracket with balanced
inside followed by a balanced rest. -/
inductive Bal : List Op → Prop where
  | nil : Bal []
  | consOther (o : Op) (l : List Op) : o ≠ Op.q → o ≠ Op.Q → Bal l → Bal (o :: l)
  | consWrap (m l : List Op) : Bal m → Bal l → Bal (Op.q :: (m ++ Op.Q :: l))

/-- Structural mirror of the backward scan: the input list is the reversed
prefix `(ops.take j).reverse`, so its head is the element the scan
examines next and the length of the tail is that element's index. -/
def backAux2 (dflt : Nat) : List Op → Nat → Nat
  | [], _ => dflt
  | o :: r, d =>
    match o with
    | Op.Q => backAux2 dflt r (d + 1)
    | Op.q => if d = 0 then r.length else backAux2 dflt r (d - 1)
    | _ => backAux2 dflt r d

/-- Structural mirror of the forward scan: the input list is
`ops.drop k`, `k` the absolute index of its head, `e` the current value
of `end`. -/
def fwd2 : List Op → Nat → Nat → Nat → Nat
  | [], _, _, e => e
  | o :: r, k, d, _ =>
    match o with
    | Op.q => fwd2 r (k + 1) (d + 1) k
    | Op.Q => if d = 0 then k else fwd2 r (k + 1) (d - 1) k
    | _ => fwd2 r (k + 1) d k

/-- The backward walk over a reversed prefix finds no unmatched `q`:
`Q` raises the depth, a `q` at depth 0 would be found (so the scan is not
safe), other operators are neutral. -/
def backSafe : List Op → Nat → Bool
  | [], _ => true
  | o :: r, d =>
    match o with
    | Op.Q => backSafe r (d + 1)
    | Op.q => (d != 0) && backSafe r (d - 1)
    | _ => backSafe r d

/-- The forward walk over a suffix finds no unmatched `Q`: `q` raises
the depth, a `Q` at depth 0 would stop the walk (so the scan is not
safe), other operators are neutral. -/
def fwdSafe : List Op → Nat → Bool
  | [], _ => true
  | o :: r, d =>
    match o with
    | Op.q => fwdSafe r (d + 1)
    | Op.Q => (d != 0) && fwdSafe r (d - 1)
    | _ => fwdSafe r d

/-- The drawing call at index `i` has no enclosing unmatched `q` before
it: the backward walk of `strip_draw_commands` over the prefix finds
none. -/
def noEnclosingSave (ops : List Op) (i : Nat) : Bool :=
  backSafe ((ops.take i).reverse) 0

/-- Split a list at the `Q` that closes the currently open bracket,
skipping `d` still-open inner brackets: `splitQ l d = some (m, s)` with
`l = m ++ Q :: s`. -/
def splitQ : List Op → Nat → Option (List Op × List Op)
  | [], _ => none
  | o :: r, d =>
    match o with
    | Op.q => (splitQ r (d + 1)).map (fun x => (Op.q :: x.1, x.2))
    | Op.Q =>
      match d with
      | 0 => some ([], r)
      | d2 + 1 => (splitQ r d2).map (fun x => (Op.Q :: x.1, x.2))
    | _ => (splitQ r d).map (fun x => (o :: x.1, x.2))

/-- No operator of `l` is a target drawing call. -/
def hitFree (targets : List String) (l : List Op) : Bool :=
  l.all (fun o => ! isHit targets o)

/-! ### PDF object model

Dictionaries of the pypdf object tree are modelled as ordered association
lists (Python dicts preserve insertion order; assigning to a present key
keeps its position, assigning a new key appends, `del` removes it).
A value is a number, a name or a text string — the kinds the scripts
compare against. -/

/-- A PDF dictionary value as the scripts inspect them: `NumberObject`,
`NameObject` or a text string.  pypdf name and string objects are both
Python `str` subclasses. -/
inductive Val where
  | num : Int → Val
  | name : String → Val
  | str : String → Val
deriving DecidableEq, Repr

/-- Assignment `d[k] = v` on an ordered dictionary: replace in place when
the key is present, append otherwise. -/
def setKey (k : String) (v : Val) : List (String × Val) → List (String × Val)
  | [] => [(k, v)]
  | kv :: r => if kv.1 == k then (k, v) :: r else kv :: setKey k v r

/-- `del d[k]` (a no-op when the key is absent, matching the guarded
deletes of `scrub_gamma_images`). -/
def delKey (k : String) (d : List (String × Val)) : List (String × Val) :=
  d.filter (fun kv => kv.1 != k)

/-- `pat` begins the character list. -/
def leadsWith : List Char → List Char → Bool
  | [], _ => true
  | _ :: _, [] => false
  | a :: ps, b :: hs => a == b && leadsWith ps hs

/-- `pat` occurs contiguously somewhere in the character list
(Python's `pat in s`). -/
def occursIn (pat : List Char) : List Char → Bool
  | [] => leadsWith pat []
  | b :: hs => leadsWith pat (b :: hs) || occursIn pat hs

/-- Python's substring test `pat in hay`. -/
def strContains (hay pat : String) : Bool := occursIn pat.data hay.data

/-- Python's `s.lower()`. -/
def toLowerStr (s : String) : String := String.mk (s.data.map Char.toLower)

/-- The marker domain of both watermark removers. -/
def GAMMA_HOST : String := "gamma.app"

/-- Target image width, `GAMMA_IMG_WIDTH`. -/
def GAMMA_IMG_WIDTH : Int := 575

/-- Target image height, `GAMMA_IMG_HEIGHT`. -/
def GAMMA_IMG_HEIGHT : Int := 137

/-- The replacement payload, `b"\x00\x00\x00"`. -/
def BLANK_PIXEL : List Nat := [0, 0, 0]

/-- A link annotation as `should_remove_annotation` reads it: the optional
`/A` action dictionary.  `none` models a missing (or Python-falsy `None`)
action; an empty list models an empty — falsy — action dictionary. -/
structure Annot where
  action : Option (List (String × Val))
deriving DecidableEq, Repr

/-- `should_remove_annotation`: an `/A` action must be present and truthy,
its `/URI` entry must be a `str` instance (pypdf text strings and names
both are), and the lowercased URI must contain the marker domain. -/
def shouldRemoveAnnot (annot : Annot) : Bool :=
  match annot.action with
  | none => false
  | some action =>
    if action.isEmpty then false
    else
      match List.lookup "/URI" action with
      | some (Val.str uri) => strContains (toLowerStr uri) GAMMA_HOST
      | some (Val.name uri) => strContains (toLowerStr uri) GAMMA_HOST
      | _ => false

/-- An image XObject: its stream payload and its dictionary. -/
structure ImgObj where
  data : List Nat
  dict : List (String × Val)
deriving DecidableEq, Repr

/-- The target test of `find_gamma_xobjects`: subtype `/Image` and the
exact configured pixel dimensions. -/
def isGammaImg (img : ImgObj) : Bool :=
  (List.lookup "/Subtype" img.dict == some (Val.name "/Image")) &&
  (List.lookup "/Width" img.dict == some (Val.num GAMMA_IMG_WIDTH)) &&
  (List.lookup "/Height" img.dict == some (Val.num GAMMA_IMG_HEIGHT))

/-- The dictionary rewrite of `scrub_gamma_images`, in source order: set
`/Width`, `/Height`, `/BitsPerComponent`, `/ColorSpace`, `/Length`, then
delete `/Filter`, `/DecodeParms`, `/SMask`, `/Mask` when present. -/
def scrubDict (d : List (String × Val)) : List (String × Val) :=
  delKey "/Mask" (delKey "/SMask" (delKey "/DecodeParms" (delKey "/Filter"
    (setKey "/Length" (Val.num (BLANK_PIXEL.length : Int))
      (setKey "/ColorSpace" (Val.name "/DeviceRGB")
        (setKey "/BitsPerComponent" (Val.num 8)
          (setKey "/Height" (Val.num 1)
            (setKey "/Width" (Val.num 1) d))))))))

/-- `scrub_gamma_images` on one targeted image: payload replaced by
`BLANK_PIXEL`, dictionary rewritten by `scrubDict`. -/
def scrubImage (img : ImgObj) : ImgObj :=
  { data := BLANK_PIXEL, dict := scrubDict img.dict }

/-- A page as `process_pdf` touches it: annotation array (absent or
present; an empty array is Python-falsy and skipped), named image
XObjects, decoded content-stream operators (absent when the page has no
`/Contents`). -/
structure Page where
  annots : Option (List Annot)
  xobjects : List (String × ImgObj)
  contents : Option (List Op)
deriving DecidableEq, Repr

/-- `find_gamma_xobjects`: the page's image resources matching the
configured dimensions (absent `/Resources` or `/XObject` are modelled by
an empty `xobjects` list). -/
def find_gamma_xobjects (page : Page) : List (String × ImgObj) :=
  page.xobjects.filter (fun nv => isGammaImg nv.2)

/-- The names the draw-command excision targets,
`set(targets.keys())`. -/
def targetNames (targets : List (String × ImgObj)) : List String :=
  targets.map (fun nv => nv.1)

/-- The annotation loop of `process_pdf`: kept annotations in order, and
the number removed. -/
def keepAnnots : List Annot → List Annot × Nat
  | [] => ([], 0)
  | a :: r =>
    let kr := keepAnnots r
    if shouldRemoveAnnot a then (kr.1, kr.2 + 1) else (a :: kr.1, kr.2)

/-- Annotations removed from one page (0 when `/Annots` is absent or the
falsy empty array). -/
def pageAnnRemoved (page : Page) : Nat :=
  match page.annots with
  | none => 0
  | some l => if l.isEmpty then 0 else (keepAnnots l).2

/-- Images scrubbed on one page: `scrub_gamma_images` returns the number
of targets. -/
def pageImgScrubbed (page : Page) : Nat := (find_gamma_xobjects page).length

/-- Draw-command spans excised on one page: 0 when there is no target or
no `/Contents` (the early returns of `strip_draw_commands`); the loop's
count otherwise.  `process_pdf` discards this value. -/
def pageStripped (page : Page) : Nat :=
  let targets := find_gamma_xobjects page
  if targets.isEmpty then 0
  else
    match page.contents with
    | none => 0
    | some ops => (strip_draw_commands (targetNames targets) ops).2

/-- One iteration of the page loop of `process_pdf`: the page as the
writer receives it, annotations removed, images scrubbed, and spans
excised. -/
def processPage (page : Page) : Page × Nat × Nat × Nat :=
  let targets := find_gamma_xobjects page
  let annots2 : Option (List Annot) :=
    match page.annots with
    | none => none
    | some l =>
      if l.isEmpty then some l
      else
        let kn := keepAnnots l
        if kn.1.length ≠ l.length then
          (if kn.1.isEmpty then none else some kn.1)
        else some l
  let xobjects2 := page.xobjects.map
    (fun nv => if isGammaImg nv.2 then (nv.1, scrubImage nv.2) else nv)
  let contents2 : Option (List Op) :=
    if targets.isEmpty then page.contents
    else
      match page.contents with
      | none => none
      | some ops => some (strip_draw_commands (targetNames targets) ops).1
  ({ annots := annots2, xobjects := xobjects2, contents := contents2 },
    pageAnnRemoved page, pageImgScrubbed page, pageStripped page)

/-- Outcome of `process_pdf`: the pages of the file on disk afterwards,
the returned count, and whether the file was rewritten. -/
structure PdfResult where
  outPages : List Page
  total : Nat
  fileWritten : Bool
deriving DecidableEq, Repr

/-- `process_pdf`: filter annotations, scrub target images, excise their
draw commands; the returned count is annotations removed plus images
scrubbed, and the file is rewritten (atomically, via a temp file) only
when that count is positive. -/
def process_pdf (pages : List Page) : PdfResult :=
  let outs := pages.map processPage
  let annR := (outs.map (fun x => x.2.1)).sum
  let imgS := (outs.map (fun x => x.2.2.1)).sum
  let total := annR + imgS
  if total = 0 then { outPages := pages, total := 0, fileWritten := false }
  else { outPages := outs.map (fun x => x.1), total := total, fileWritten := true }

/-! ### PPTX layout scrub (`src/remove_gamma_logo.py`)

A relationship entry of a slide layout's `.rels` part, and the layout's
XML tree.  ElementTree tags carry the namespace as `{uri}local`; the
constants below spell the tags the walk compares against. -/

/-- One `<Relationship>` of a layout's rels part: its `Type` and `Target`
attributes (missing attributes default to the empty string, as
`rel.get(..., "")` does) and its optional `Id`. -/
structure RelEntry where
  typ : String
  target : String
  id : Option String
deriving DecidableEq, Repr

/-- Python truthiness of `rel.get("Id")`: present and non-empty. -/
def relIdTruthy : Option String → Bool
  | none => false
  | some s => ! s.isEmpty

/-- The gamma-hyperlink test of `strip_gamma_from_layout`: a hyperlink
relationship whose target contains the marker domain case-insensitively,
with a truthy `Id`. -/
def isGammaRel (r : RelEntry) : Bool :=
  strContains r.typ "hyperlink" &&
  strContains (toLowerStr r.target) GAMMA_HOST &&
  relIdTruthy r.id

/-- The relationship ids collected into `gamma_hlink_ids`. -/
def collectGammaIds (rels : List RelEntry) : List String :=
  (rels.filter isGammaRel).filterMap (fun r => r.id)

/-- An ElementTree element: tag, attributes, children. -/
inductive Xml where
  | node : String → List (String × String) → List Xml → Xml

/-- Number of elements of the tree (dominates its depth); the fuel the
recursive walks receive. -/
def xmlSize : Xml → Nat
  | Xml.node _ _ c => 1 + (c.attach.map (fun z => xmlSize z.val)).sum
decreasing_by
  have h := List.sizeOf_lt_of_mem z.property
  simp only [Xml.node.sizeOf_spec]
  omega

/-- The element's tag. -/
def xmlTag : Xml → String
  | Xml.node t _ _ => t

/-- The element's attributes. -/
def xmlAttrs : Xml → List (String × String)
  | Xml.node _ a _ => a

/-- The element's children. -/
def xmlKids : Xml → List Xml
  | Xml.node _ _ c => c

/-- DrawingML namespace (`a`). -/
def NS_A : String := "http://schemas.openxmlformats.org/drawingml/2006/main"

/-- PresentationML namespace (`p`). -/
def NS_P : String := "http://schemas.openxmlformats.org/presentationml/2006/main"

/-- Relationships namespace (`r`). -/
def NS_R : String := "http://schemas.openxmlformats.org/officeDocument/2006/relationships"

/-- `p:pic` as ElementTree spells it. -/
def PIC_TAG : String := "\x7b" ++ NS_P ++ "\x7dpic"

/-- `a:hlinkClick`. -/
def HLINK_TAG : String := "\x7b" ++ NS_A ++ "\x7dhlinkClick"

/-- `a:blip`. -/
def BLIP_TAG : String := "\x7b" ++ NS_A ++ "\x7dblip"

/-- The `r:id` attribute key. -/
def RID_ATTR : String := "\x7b" ++ NS_R ++ "\x7did"

/-- The `r:embed` attribute key. -/
def EMBED_ATTR : String := "\x7b" ++ NS_R ++ "\x7dembed"

/-- All strict descendants of an element (`findall(".//…")` reaches
exactly these); the fuel, called with `sizeOf`, dominates the tree
depth. -/
def descsF : Nat → Xml → List Xml
  | 0, _ => []
  | fuel + 1, x => (xmlKids x).flatMap (fun c => c :: descsF fuel c)

/-- All strict descendants of an element. -/
def descendants (x : Xml) : List Xml := descsF (xmlSize x) x

/-- `should_remove` of the walk: some descendant `a:hlinkClick` carries an
`r:id` in the collected gamma ids. -/
def picShouldRemove (ids : List String) (pic : Xml) : Bool :=
  (descendants pic).any (fun d =>
    xmlTag d == HLINK_TAG &&
      match List.lookup RID_ATTR (xmlAttrs d) with
      | some rid => ids.contains rid
      | none => false)

/-- The `r:embed` ids of the `a:blip` descendants of a removed picture
(truthy ones only, as `if rid:` requires). -/
def picBlipEmbeds (pic : Xml) : List String :=
  (descendants pic).filterMap (fun d =>
    if xmlTag d == BLIP_TAG then
      match List.lookup EMBED_ATTR (xmlAttrs d) with
      | some rid => if rid.isEmpty then none else some rid
      | none => none
    else none)

/-- The recursive `walk` of `strip_gamma_from_layout`: children first,
then the matching `p:pic` children of this element are dropped and their
blip embed ids collected.  Returns the rewritten element, the embed ids
collected below it, and whether anything was removed.  The fuel dominates
the tree depth (the caller passes `sizeOf`). -/
def walkRemove (ids : List String) : Nat → Xml → Xml × List String × Bool
  | 0, x => (x, [], false)
  | fuel + 1, Xml.node t a c =>
    let sub := c.map (walkRemove ids fuel)
    let kids1 := sub.map (fun z => z.1)
    let embeds1 := (sub.map (fun z => z.2.1)).flatten
    let changed1 := sub.any (fun z => z.2.2)
    let removedPics := kids1.filter
      (fun ch => xmlTag ch == PIC_TAG && picShouldRemove ids ch)
    let kids2 := kids1.filter
      (fun ch => ! (xmlTag ch == PIC_TAG && picShouldRemove ids ch))
    (Xml.node t a kids2, embeds1 ++ (removedPics.map picBlipEmbeds).flatten,
      changed1 || ! removedPics.isEmpty)

/-- `strip_gamma_from_layout`: collect and drop gamma hyperlink
relationships; when none matched, return the parts untouched with
`changed = False`; otherwise remove the referencing pictures and the
embed relationships of their images. -/
def strip_gamma_from_layout (layout : Xml) (rels : Option (List RelEntry)) :
    Xml × Option (List RelEntry) × Bool :=
  match rels with
  | none => (layout, none, false)
  | some rs =>
    let ids := collectGammaIds rs
    if ids.isEmpty then (layout, some rs, false)
    else
      let rs1 := rs.filter (fun r => ! isGammaRel r)
      let w := walkRemove ids (xmlSize layout) layout
      let rs2 :=
        if w.2.1.isEmpty then rs1
        else rs1.filter (fun r =>
          match r.id with
          | some i => ! w.2.1.contains i
          | none => true)
      (w.1, some rs2, true)

/-- A slide layout with its optional rels part, as `main` pairs them. -/
structure LayoutUnit where
  layout : Xml
  rels : Option (List RelEntry)

/-- Outcome of the PPTX `main`: the archive's layout parts afterwards,
the reported count, and whether the archive file was rewritten. -/
structure PptxResult where
  outLayouts : List LayoutUnit
  total : Nat
  fileWritten : Bool

/-- The layout loop of the PPTX `main`: strip each layout, keep changed
parts, count changed layouts; when none changed, the archive is not
rewritten. -/
def mainPptx (layouts : List LayoutUnit) : PptxResult :=
  let outs := layouts.map (fun u =>
    let r := strip_gamma_from_layout u.layout u.rels
    (if r.2.2 then ({ layout := r.1, rels := r.2.1 } : LayoutUnit) else u, r.2.2))
  let total := (outs.filter (fun z => z.2)).length
  if total = 0 then { outLayouts := layouts, total := 0, fileWritten := false }
  else { outLayouts := outs.map (fun z => z.1), total := total, fileWritten := true }

/-! ### PDF unlock (`src/unlock_pdf.py`) -/

/-- An input PDF for `unlock_pdf`: its pages, whether it is encrypted,
and (modelling the opaque pypdf decrypt collaborator) the password that
decrypts it. -/
structure PdfFile where
  pages : List Nat
  encrypted : Bool
  password : String
deriving DecidableEq, Repr

/-- Model of `reader.decrypt(password)` being truthy: pypdf decryption
succeeds exactly on the file's correct password. -/
def decryptOk (pdf : PdfFile) (pw : String) : Bool := pw == pdf.password

/-- What `unlock_pdf` hands back: the `(success, message)` pair, plus the
pages written to the output path (`none` when nothing was written).
Totality of this function is the model of "no exception escapes": every
branch, including the `FileNotFoundError` one (`input = none`), returns a
result. -/
structure UnlockResult where
  ok : Bool
  message : String
  written : Option (List Nat)
deriving DecidableEq, Repr

/-- `unlock_pdf`: decrypt when encrypted and the password is accepted,
copy when unencrypted, report failure otherwise; the writer receives
every reader page. -/
def unlock_pdf (input : Option PdfFile) (pw : String) : UnlockResult :=
  match input with
  | none =>
    { ok := false, message := "Error: Input file not found.", written := none }
  | some pdf =>
    if pdf.encrypted then
      if decryptOk pdf pw then
        { ok := true, message := "Successfully unlocked input to output.",
          written := some pdf.pages }
      else
        { ok := false,
          message := "Error: Could not decrypt input. Incorrect password.",
          written := none }
    else
      { ok := true,
        message := "Input is not password protected. Copying to output.",
        written := some pdf.pages }

/-- No image XObject of the page matches the configured dimensions. -/
def pageNoGammaImg (page : Page) : Bool := (find_gamma_xobjects page).isEmpty

/-- No annotation of the page is a removal target. -/
def pageNoGammaAnnot (page : Page) : Bool :=
  match page.annots with
  | none => true
  | some l => l.all (fun a => ! shouldRemoveAnnot a)

/-- No relationship entry of the layout's rels part is a gamma
hyperlink. -/
def unitNoGammaRel (u : LayoutUnit) : Bool :=
  match u.rels with
  | none => true
  | some rs => rs.all (fun r => ! isGammaRel r)

/-! ### Concrete instances used by witnesses and counterexamples -/

/-- A link annotation whose action URI points into the marker domain. -/
def gammaAnnotEx : Annot :=
  { action := some [("/URI", Val.str "https://gamma.app/docs/x")] }

/-- A page with a gamma link annotation but no image resources at all. -/
def pageAnnotOnlyEx : Page :=
  { annots := some [gammaAnnotEx], xobjects := [], contents := none }

/-- A page with an action-less annotation and a 100×137 image: nothing to
remove. -/
def pageCleanEx : Page :=
  { annots := some [{ action := none }],
    xobjects := [("/Im1",
      { data := [],
        dict := [("/Subtype", Val.name "/Image"), ("/Width", Val.num 100),
          ("/Height", Val.num 137)] })],
    contents := some [Op.q, Op.Q] }

/-- An image resource with the targeted 575×137 dimensions. -/
def gammaImgEx : ImgObj :=
  { data := [0, 1, 2],
    dict := [("/Subtype", Val.name "/Image"), ("/Width", Val.num 575),
      ("/Height", Val.num 137)] }

/-- A page drawing the targeted image inside one `q … Q` bracket. -/
def pageImgEx : Page :=
  { annots := none, xobjects := [("/Im0", gammaImgEx)],
    contents := some [Op.q, Op.doOp "/Im0", Op.Q] }

/-- A slide layout whose only relationship is a non-gamma hyperlink. -/
def layoutCleanEx : LayoutUnit :=
  { layout := Xml.node "root" [] [],
    rels := some
      [⟨"http://schemas/hyperlink", "https://example.com/page", some "rId1"⟩] }

/-! ## Lemmas: list indexing -/

/-- Indexing an append on the left side. -/
theorem opAt_append_left (p l : List Op) (j : Nat) (h : j < p.length) :
    opAt (p ++ l) j = opAt p j :=
  List.getD_append p l (Op.other 0) j h

/-- Indexing an append on the right side. -/
theorem opAt_append_right (p l : List Op) (n : Nat) :
    opAt (p ++ l) (p.length + n) = opAt l n := by
  unfold opAt
  rw [List.getD_append_right p l _ (p.length + n) (Nat.le_add_right _ _)]
  congr 1
  omega

/-- An in-range index yields a member of the list. -/
theorem opAt_mem (l : List Op) (i : Nat) (h : i < l.length) : opAt l i ∈ l := by
  rw [opAt, List.getD_eq_getElem l _ h]
  exact List.getElem_mem h

/-- `take (j+1)` appends the element at `j`. -/
theorem take_succ_opAt (ops : List Op) (j : Nat) (h : j < ops.length) :
    ops.take (j + 1) = ops.take j ++ [opAt ops j] := by
  rw [List.take_succ]
  congr 1
  rw [List.getElem?_eq_getElem h, opAt, List.getD_eq_getElem ops _ h]
  rfl

/-! ## Lemmas: the backward scan -/

/-- The backward scan equals its structural mirror on the reversed
prefix. -/
theorem backAux_eq_backAux2 (ops : List Op) (dflt : Nat) :
    ∀ j, j ≤ ops.length → ∀ d,
      backAux ops dflt j d = backAux2 dflt ((ops.take j).reverse) d := by
  intro j
  induction j with
  | zero => intro _ d; simp [backAux, backAux2]
  | succ j ih =>
    intro h d
    have hj : j < ops.length := by omega
    rw [take_succ_opAt ops j hj, List.reverse_concat]
    have hlen : ((ops.take j).reverse).length = j := by
      simp [List.length_take]; omega
    cases hop : opAt ops j with
    | q =>
      by_cases hd : d = 0
      · simp [backAux, backAux2, hop, hlen, hd]
      · simp [backAux, backAux2, hop, hd, ih (by omega)]
    | Q => simp [backAux, backAux2, hop, ih (by omega)]
    | doOp t => simp [backAux, backAux2, hop, ih (by omega)]
    | other n => simp [backAux, backAux2, hop, ih (by omega)]

/-- The structural backward scan passes over a reversed balanced segment
without stopping and without a net depth change. -/
theorem backAux2_skip (dflt : Nat) (m : List Op) (hm : Bal m) :
    ∀ l d, backAux2 dflt (m.reverse ++ l) d = backAux2 dflt l d := by
  induction hm with
  | nil => intro l d; simp
  | consOther o m2 ho1 ho2 _ ih =>
    intro l d
    have hsh : (o :: m2).reverse ++ l = m2.reverse ++ (o :: l) := by
      simp [List.append_assoc]
    rw [hsh, ih (o :: l) d]
    cases o with
    | q => exact absurd rfl ho1
    | Q => exact absurd rfl ho2
    | doOp t => simp [backAux2]
    | other n => simp [backAux2]
  | consWrap m2 l2 _ _ ihm ihl =>
    intro l d
    have hsh : (Op.q :: (m2 ++ Op.Q :: l2)).reverse ++ l
        = l2.reverse ++ (Op.Q :: (m2.reverse ++ (Op.q :: l))) := by
      simp [List.reverse_append, List.append_assoc]
    rw [hsh, ihl (Op.Q :: (m2.reverse ++ (Op.q :: l))) d]
    have h1 : backAux2 dflt (Op.Q :: (m2.reverse ++ (Op.q :: l))) d
        = backAux2 dflt (m2.reverse ++ (Op.q :: l)) (d + 1) := by
      simp [backAux2]
    rw [h1, ihm (Op.q :: l) (d + 1)]
    simp [backAux2]

/-- A backward-safe reversed prefix makes the scan return its default. -/
theorem backAux2_of_backSafe (dflt : Nat) :
    ∀ r d, backSafe r d = true → backAux2 dflt r d = dflt := by
  intro r
  induction r with
  | nil => intro d _; rfl
  | cons o r ih =>
    intro d h
    cases o with
    | q =>
      simp only [backSafe, Bool.and_eq_true, bne_iff_ne, ne_eq] at h
      simp [backAux2, h.1, ih _ h.2]
    | Q =>
      simp only [backSafe] at h
      simp [backAux2, ih _ h]
    | doOp t =>
      simp only [backSafe] at h
      simp [backAux2, ih _ h]
    | other n =>
      simp only [backSafe] at h
      simp [backAux2, ih _ h]

/-! ## Lemmas: the forward scan -/

/-- The forward scan equals its structural mirror on the dropped
suffix. -/
theorem fwdAux_eq_fwd2 (ops : List Op) :
    ∀ n k d e, k + n = ops.length →
      fwdAux ops n k d e = fwd2 (ops.drop k) k d e := by
  intro n
  induction n with
  | zero =>
    intro k d e h
    have hd : ops.drop k = [] := List.drop_eq_nil_of_le (by omega)
    simp [fwdAux, hd, fwd2]
  | succ n ih =>
    intro k d e h
    have hk : k < ops.length := by omega
    have hdrop : ops.drop k = opAt ops k :: ops.drop (k + 1) := by
      rw [List.drop_eq_getElem_cons hk]
      congr 1
      rw [opAt, List.getD_eq_getElem ops _ hk]
    rw [hdrop]
    cases hop : opAt ops k with
    | q =>
      simp only [fwdAux, fwd2, hop]
      exact ih (k + 1) (d + 1) k (by omega)
    | Q =>
      by_cases hd : d = 0
      · simp [fwdAux, fwd2, hop, hd]
      · simp only [fwdAux, fwd2, hop, hd, if_false]
        exact ih (k + 1) (d - 1) k (by omega)
    | doOp t =>
      simp only [fwdAux, fwd2, hop]
      exact ih (k + 1) d k (by omega)
    | other m =>
      simp only [fwdAux, fwd2, hop]
      exact ih (k + 1) d k (by omega)

/-- Congruence for the structural forward scan in its index and `end`
arguments. -/
theorem fwd2_congr (l : List Op) (k1 k2 d e1 e2 : Nat) (hk : k1 = k2) (he : e1 = e2) :
    fwd2 l k1 d e1 = fwd2 l k2 d e2 := by rw [hk, he]

/-- The structural forward scan passes over a balanced segment without
stopping and without a net depth change; afterwards `end` points at the
last element of the segment (or is untouched when it is empty). -/
theorem fwd2_skip (m : List Op) (hm : Bal m) :
    ∀ l k d e, fwd2 (m ++ l) k d e
      = fwd2 l (k + m.length) d (if m.length = 0 then e else k + m.length - 1) := by
  induction hm with
  | nil => intro l k d e; simp
  | consOther o m2 ho1 ho2 _ ih =>
    intro l k d e
    have hstep : fwd2 ((o :: m2) ++ l) k d e = fwd2 (m2 ++ l) (k + 1) d k := by
      cases o with
      | q => exact absurd rfl ho1
      | Q => exact absurd rfl ho2
      | doOp t => simp [fwd2]
      | other n => simp [fwd2]
    rw [hstep, ih l (k + 1) d k]
    apply fwd2_congr
    · simp only [List.length_cons]; omega
    · by_cases hz : m2.length = 0
      · rw [if_pos hz, if_neg (by simp)]
        simp [hz]
      · rw [if_neg hz, if_neg (by simp)]
        simp only [List.length_cons]; omega
  | consWrap m2 l2 _ _ ihm ihl =>
    intro l k d e
    have hsh : (Op.q :: (m2 ++ Op.Q :: l2)) ++ l
        = Op.q :: (m2 ++ (Op.Q :: (l2 ++ l))) := by
      simp [List.append_assoc]
    rw [hsh]
    have hstep : fwd2 (Op.q :: (m2 ++ (Op.Q :: (l2 ++ l)))) k d e
        = fwd2 (m2 ++ (Op.Q :: (l2 ++ l))) (k + 1) (d + 1) k := by
      simp [fwd2]
    rw [hstep, ihm (Op.Q :: (l2 ++ l)) (k + 1) (d + 1) k]
    have hstep2 : ∀ e2, fwd2 (Op.Q :: (l2 ++ l)) (k + 1 + m2.length) (d + 1) e2
        = fwd2 (l2 ++ l) (k + 1 + m2.length + 1) d (k + 1 + m2.length) := by
      intro e2; simp [fwd2]
    rw [hstep2, ihl l (k + 1 + m2.length + 1) d (k + 1 + m2.length)]
    apply fwd2_congr
    · simp only [List.length_cons, List.length_append]; omega
    · by_cases hz : l2.length = 0
      · rw [if_pos hz, if_neg (by simp)]
        simp only [List.length_cons, List.length_append]
        omega
      · rw [if_neg hz, if_neg (by simp)]
        simp only [List.length_cons, List.length_append]
        omega

/-! ## Lemmas: balance -/

/-- Replay distributes over append. -/
theorem depthRun_append (a b : List Op) :
    ∀ d, depthRun (a ++ b) d = (depthRun a d).bind (fun e => depthRun b e) := by
  induction a with
  | nil => intro d; simp [depthRun]
  | cons o r ih =>
    intro d
    cases o with
    | q => simp [depthRun, ih]
    | Q =>
      by_cases hd : d = 0
      · simp [depthRun, hd]
      · simp [depthRun, hd, ih]
    | doOp t => simp [depthRun, ih]
    | other n => simp [depthRun, ih]

/-- A grammatically balanced list replays from any depth back to that
depth. -/
theorem Bal_depthRun (m : List Op) (hm : Bal m) :
    ∀ d, depthRun m d = some d := by
  induction hm with
  | nil => intro d; rfl
  | consOther o m2 ho1 ho2 _ ih =>
    intro d
    cases o with
    | q => exact absurd rfl ho1
    | Q => exact absurd rfl ho2
    | doOp t => simpa [depthRun] using ih d
    | other n => simpa [depthRun] using ih d
  | consWrap m2 l2 _ _ ihm ihl =>
    intro d
    have h1 : depthRun (Op.q :: (m2 ++ Op.Q :: l2)) d
        = depthRun (m2 ++ Op.Q :: l2) (d + 1) := by simp [depthRun]
    rw [h1, depthRun_append, ihm (d + 1)]
    simp [depthRun, ihl d]

/-- A grammatically balanced list is balanced. -/
theorem Bal_balanced (m : List Op) (hm : Bal m) : balanced m = true := by
  simp [balanced, Bal_depthRun m hm 0]

/-- Replay shifts with the starting depth whenever it succeeds. -/
theorem depthRun_shift (l : List Op) :
    ∀ d e, depthRun l d = some e → depthRun l (d + 1) = some (e + 1) := by
  induction l with
  | nil => intro d e h; simp [depthRun] at h ⊢; omega
  | cons o r ih =>
    intro d e h
    cases o with
    | q =>
      simp only [depthRun] at h ⊢
      exact ih (d + 1) e h
    | Q =>
      cases d with
      | zero => simp [depthRun] at h
      | succ d2 =>
        simp only [depthRun, Nat.succ_ne_zero, if_false, Nat.succ_sub_one] at h ⊢
        exact ih d2 e h
    | doOp t =>
      simp only [depthRun] at h ⊢
      exact ih d e h
    | other n =>
      simp only [depthRun] at h ⊢
      exact ih d e h

/-- A successful split decomposes the list at a closing `Q`, and the
part before that `Q` consumes exactly the open brackets: it replays from
depth `d` to depth `0`. -/
theorem splitQ_spec :
    ∀ (l : List Op) (d : Nat) (m s : List Op),
      splitQ l d = some (m, s) → l = m ++ Op.Q :: s ∧ depthRun m d = some 0 := by
  intro l
  induction l with
  | nil => intro d m s h; simp [splitQ] at h
  | cons o r ih =>
    intro d m s h
    cases o with
    | q =>
      simp only [splitQ] at h
      cases hx : splitQ r (d + 1) with
      | none => rw [hx] at h; simp at h
      | some x =>
        rw [hx] at h
        simp at h
        obtain ⟨hm, hs⟩ := h
        subst hm
        subst hs
        obtain ⟨ha, hd⟩ := ih (d + 1) x.1 x.2 hx
        refine ⟨by simp [ha], ?_⟩
        simpa [depthRun] using hd
    | Q =>
      cases d with
      | zero =>
        simp only [splitQ] at h
        simp at h
        obtain ⟨hm, hs⟩ := h
        subst hm
        subst hs
        exact ⟨rfl, rfl⟩
      | succ d2 =>
        simp only [splitQ] at h
        cases hx : splitQ r d2 with
        | none => rw [hx] at h; simp at h
        | some x =>
          rw [hx] at h
          simp at h
          obtain ⟨hm, hs⟩ := h
          subst hm
          subst hs
          obtain ⟨ha, hd⟩ := ih d2 x.1 x.2 hx
          refine ⟨by simp [ha], ?_⟩
          simpa [depthRun] using hd
    | doOp t =>
      simp only [splitQ] at h
      cases hx : splitQ r d with
      | none => rw [hx] at h; simp at h
      | some x =>
        rw [hx] at h
        simp at h
        obtain ⟨hm, hs⟩ := h
        subst hm
        subst hs
        obtain ⟨ha, hd⟩ := ih d x.1 x.2 hx
        refine ⟨by simp [ha], ?_⟩
        simpa [depthRun] using hd
    | other n =>
      simp only [splitQ] at h
      cases hx : splitQ r d with
      | none => rw [hx] at h; simp at h
      | some x =>
        rw [hx] at h
        simp at h
        obtain ⟨hm, hs⟩ := h
        subst hm
        subst hs
        obtain ⟨ha, hd⟩ := ih d x.1 x.2 hx
        refine ⟨by simp [ha], ?_⟩
        simpa [depthRun] using hd

/-- When replay from depth `d + 1` ends at depth 0, some `Q` closes the
open bracket: the split succeeds. -/
theorem splitQ_isSome :
    ∀ (l : List Op) (d : Nat), depthRun l (d + 1) = some 0 →
      (splitQ l d).isSome := by
  intro l
  induction l with
  | nil => intro d h; simp [depthRun] at h
  | cons o r ih =>
    intro d h
    cases o with
    | q =>
      simp only [depthRun] at h
      have := ih (d + 1) h
      simp only [splitQ]
      cases hx : splitQ r (d + 1) with
      | none => rw [hx] at this; simp at this
      | some x => simp
    | Q =>
      simp only [depthRun, Nat.succ_ne_zero, if_false, Nat.succ_sub_one] at h
      cases d with
      | zero => simp [splitQ]
      | succ d2 =>
        have := ih d2 h
        simp only [splitQ]
        cases hx : splitQ r d2 with
        | none => rw [hx] at this; simp at this
        | some x => simp
    | doOp t =>
      simp only [depthRun] at h
      have := ih d h
      simp only [splitQ]
      cases hx : splitQ r d with
      | none => rw [hx] at this; simp at this
      | some x => simp
    | other n =>
      simp only [depthRun] at h
      have := ih d h
      simp only [splitQ]
      cases hx : splitQ r d with
      | none => rw [hx] at this; simp at this
      | some x => simp

/-- Counting balance implies grammatical balance. -/
theorem balanced_Bal : ∀ (l : List Op), depthRun l 0 = some 0 → Bal l := by
  have main : ∀ (n : Nat) (l : List Op), l.length = n → depthRun l 0 = some 0 → Bal l := by
    intro n
    induction n using Nat.strong_induction_on with
    | _ n ih =>
      intro l hn h
      cases l with
      | nil => exact Bal.nil
      | cons o r =>
        cases o with
        | q =>
          simp only [depthRun] at h
          have hsome := splitQ_isSome r 0 h
          cases hx : splitQ r 0 with
          | none => rw [hx] at hsome; simp at hsome
          | some x =>
            obtain ⟨m, s⟩ := x
            obtain ⟨happ, hm0⟩ := splitQ_spec r 0 m s hx
            have hm1 : depthRun m 1 = some 1 := depthRun_shift m 0 0 hm0
            have hs0 : depthRun s 0 = some 0 := by
              rw [happ, depthRun_append] at h
              rw [hm1] at h
              simpa [depthRun] using h
            have hlm : m.length < n := by
              subst hn; rw [happ]; simp; omega
            have hls : s.length < n := by
              subst hn; rw [happ]; simp; omega
            have hbm : Bal m := ih m.length hlm m rfl hm0
            have hbs : Bal s := ih s.length hls s rfl hs0
            rw [happ]
            exact Bal.consWrap m s hbm hbs
        | Q => simp [depthRun] at h
        | doOp t =>
          simp only [depthRun] at h
          have hr : r.length < n := by subst hn; simp
          exact Bal.consOther _ r (by simp) (by simp) (ih r.length hr r rfl h)
        | other m =>
          simp only [depthRun] at h
          have hr : r.length < n := by subst hn; simp
          exact Bal.consOther _ r (by simp) (by simp) (ih r.length hr r rfl h)
  intro l h
  exact main l.length l rfl h

/-- Grammatical balance is preserved by append. -/
theorem Bal_append (a b : List Op) (ha : Bal a) (hb : Bal b) : Bal (a ++ b) := by
  induction ha with
  | nil => simpa using hb
  | consOther o l ho1 ho2 _ ih => exact Bal.consOther o (l ++ b) ho1 ho2 ih
  | consWrap m l _ hl ihm ihl =>
    have : (Op.q :: (m ++ Op.Q :: l)) ++ b = Op.q :: (m ++ Op.Q :: (l ++ b)) := by
      simp
    rw [this]
    exact Bal.consWrap m (l ++ b) (by assumption) ihl

/-- In a grammatically balanced list, a drawing call at index `i` sits
either inside an innermost complete bracket (with balanced segments
between the brackets and the call) or at top level (with balanced prefix
and suffix). -/
theorem bal_decomp (l : List Op) (hb : Bal l) :
    ∀ i t, i < l.length → opAt l i = Op.doOp t →
      (∃ p m1 m2 s, l = p ++ Op.q :: (m1 ++ Op.doOp t :: (m2 ++ Op.Q :: s)) ∧
        Bal m1 ∧ Bal m2 ∧ i = p.length + m1.length + 1) ∨
      (∃ p s, l = p ++ Op.doOp t :: s ∧ Bal p ∧ Bal s ∧ i = p.length) := by
  induction hb with
  | nil => intro i t hi _; simp at hi
  | consOther o r ho1 ho2 hr ih =>
    intro i t hi hop
    cases i with
    | zero =>
      have ho : o = Op.doOp t := by simpa [opAt] using hop
      subst ho
      right
      exact ⟨[], r, rfl, Bal.nil, hr, rfl⟩
    | succ i2 =>
      have hi2 : i2 < r.length := by simpa using hi
      have hop2 : opAt r i2 = Op.doOp t := by simpa [opAt] using hop
      rcases ih i2 t hi2 hop2 with
        ⟨p, m1, m2, s, heq, hb1, hb2, hidx⟩ | ⟨p, s, heq, hbp, hbs, hidx⟩
      · left
        refine ⟨o :: p, m1, m2, s, by simp [heq], hb1, hb2, by simp; omega⟩
      · right
        refine ⟨o :: p, s, by simp [heq],
          Bal.consOther o p ho1 ho2 hbp, hbs, by simp; omega⟩
  | consWrap m r hm hr ihm ihr =>
    intro i t hi hop
    cases i with
    | zero => simp [opAt] at hop
    | succ i2 =>
      have hop2 : opAt (m ++ Op.Q :: r) i2 = Op.doOp t := by
        simpa [opAt] using hop
      have hi2 : i2 < m.length + 1 + r.length := by
        simp at hi; omega
      by_cases hlt : i2 < m.length
      · have hop3 : opAt m i2 = Op.doOp t := by
          rw [← opAt_append_left m (Op.Q :: r) i2 hlt]; exact hop2
        rcases ihm i2 t hlt hop3 with
          ⟨p, m1, m2, s, heq, hb1, hb2, hidx⟩ | ⟨p, s, heq, hbp, hbs, hidx⟩
        · left
          refine ⟨Op.q :: p, m1, m2, s ++ Op.Q :: r, ?_, hb1, hb2, ?_⟩
          · subst heq; simp [List.append_assoc]
          · simp; omega
        · left
          refine ⟨[], p, s, r, ?_, hbp, hbs, ?_⟩
          · subst heq; simp [List.append_assoc]
          · simp; omega
      · by_cases hq : i2 = m.length
        · exfalso
          subst hq
          have h0 : opAt (m ++ Op.Q :: r) (m.length + 0) = opAt (Op.Q :: r) 0 :=
            opAt_append_right m (Op.Q :: r) 0
          rw [Nat.add_zero] at h0
          rw [h0] at hop2
          simp [opAt] at hop2
        · have hj5 : i2 = m.length + (i2 - (m.length + 1) + 1) := by omega
          have hop4 : opAt r (i2 - (m.length + 1)) = Op.doOp t := by
            rw [hj5, opAt_append_right m (Op.Q :: r)] at hop2
            simpa [opAt] using hop2
          have hj : i2 - (m.length + 1) < r.length := by omega
          rcases ihr (i2 - (m.length + 1)) t hj hop4 with
            ⟨p, m1, m2, s, heq, hb1, hb2, hidx⟩ | ⟨p, s, heq, hbp, hbs, hidx⟩
          · left
            refine ⟨Op.q :: (m ++ Op.Q :: p), m1, m2, s, ?_, hb1, hb2, ?_⟩
            · subst heq; simp [List.append_assoc]
            · simp; omega
          · right
            refine ⟨Op.q :: (m ++ Op.Q :: p), s, ?_,
              Bal.consWrap m p hm hbp, hbs, ?_⟩
            · subst heq; simp [List.append_assoc]
            · simp; omega

/-! ## The two walks on decomposed streams -/

/-- Backward walk from a drawing call directly inside a `q` bracket: the
balanced segment `m1` between the `q` and the call is skipped and the
walk stops at that `q`. -/
theorem findStart_at (p m1 rest : List Op) (hb : Bal m1) :
    findStart (p ++ Op.q :: (m1 ++ rest)) (p.length + m1.length + 1) = p.length := by
  have hlen : p.length + m1.length + 1 ≤ (p ++ Op.q :: (m1 ++ rest)).length := by
    simp; omega
  rw [findStart, backAux_eq_backAux2 _ _ _ hlen]
  have htake : (p ++ Op.q :: (m1 ++ rest)).take (p.length + m1.length + 1)
      = p ++ Op.q :: m1 := by
    have h1 : p.length + m1.length + 1 = p.length + (m1.length + 1) := by omega
    rw [h1, List.take_append]
    rw [List.take_succ_cons, List.take_left]
  rw [htake]
  have hrev : (p ++ Op.q :: m1).reverse = m1.reverse ++ (Op.q :: p.reverse) := by
    simp
  rw [hrev, backAux2_skip _ m1 hb]
  simp [backAux2]

/-- Backward walk when the prefix before the call is balanced: no
unmatched `q` exists, so the start defaults to the call's own index. -/
theorem findStart_bal_take (ops p : List Op) (i : Nat) (hi : i ≤ ops.length)
    (htake : ops.take i = p) (hb : Bal p) : findStart ops i = i := by
  rw [findStart, backAux_eq_backAux2 _ _ _ hi, htake]
  have h0 : p.reverse = p.reverse ++ [] := by simp
  rw [h0, backAux2_skip _ p hb]
  rfl

/-- Backward walk under the spec's no-enclosing-save condition: the start
defaults to the call's own index. -/
theorem findStart_safe (ops : List Op) (i : Nat) (hi : i ≤ ops.length)
    (h : noEnclosingSave ops i = true) : findStart ops i = i := by
  rw [findStart, backAux_eq_backAux2 _ _ _ hi]
  exact backAux2_of_backSafe i _ 0 h

/-- Forward walk with a balanced segment `m2` before the closing `Q`:
the walk skips `m2` and stops at that `Q`. -/
theorem findEnd_at (ops m2 s : List Op) (i : Nat) (hi : i + 1 ≤ ops.length)
    (hdrop : ops.drop (i + 1) = m2 ++ Op.Q :: s) (hb : Bal m2) :
    findEnd ops i = i + m2.length + 1 := by
  rw [findEnd, fwdAux_eq_fwd2 ops _ _ _ _ (by omega), hdrop, fwd2_skip m2 hb]
  simp [fwd2]
  omega

/-- Forward walk over a balanced suffix: no unmatched `Q` exists, so the
scan runs to the end of the list (leaving `end` at the last index, or at
`i` when nothing follows). -/
theorem findEnd_bal_drop (ops s : List Op) (i : Nat) (hi : i + 1 ≤ ops.length)
    (hdrop : ops.drop (i + 1) = s) (hb : Bal s) :
    findEnd ops i = (if s.length = 0 then i else i + s.length) := by
  rw [findEnd, fwdAux_eq_fwd2 ops _ _ _ _ (by omega), hdrop]
  have h0 : fwd2 s (i + 1) 0 i = fwd2 (s ++ []) (i + 1) 0 i := by simp
  rw [h0, fwd2_skip s hb]
  by_cases hz : s.length = 0
  · simp [hz, fwd2]
  · rw [if_neg hz, if_neg hz]
    simp [fwd2]

/-- Forward walk when the call is the last operator: the loop body never
runs and `end` stays at `i`. -/
theorem findEnd_last (ops : List Op) (i : Nat) (hlast : i + 1 = ops.length) :
    findEnd ops i = i := by
  rw [findEnd]
  have h0 : ops.length - (i + 1) = 0 := by omega
  rw [h0]
  rfl

/-- When the forward loop runs at least one step, `end` moves to `i + 1`
or beyond: every return value of the scan is at least its starting
index. -/
theorem fwdAux_ge (ops : List Op) : ∀ (n k d e : Nat), k ≤ fwdAux ops (n + 1) k d e := by
  intro n
  induction n with
  | zero =>
    intro k d e
    cases hop : opAt ops k with
    | q => simp [fwdAux, hop]
    | Q => by_cases hd : d = 0 <;> simp [fwdAux, hop, hd]
    | doOp t => simp [fwdAux, hop]
    | other m => simp [fwdAux, hop]
  | succ n ih =>
    intro k d e
    cases hop : opAt ops k with
    | q =>
      have h2 := ih (k + 1) (d + 1) k
      have hstep : fwdAux ops (n + 1 + 1) k d e
          = fwdAux ops (n + 1) (k + 1) (d + 1) k := by
        simp [fwdAux, hop]
      rw [hstep]
      omega
    | Q =>
      by_cases hd : d = 0
      · simp [fwdAux, hop, hd]
      · have h2 := ih (k + 1) (d - 1) k
        have hstep : fwdAux ops (n + 1 + 1) k d e
            = fwdAux ops (n + 1) (k + 1) (d - 1) k := by
          simp [fwdAux, hop, hd]
        rw [hstep]
        omega
    | doOp t =>
      have h2 := ih (k + 1) d k
      have hstep : fwdAux ops (n + 1 + 1) k d e
          = fwdAux ops (n + 1) (k + 1) d k := by
        simp [fwdAux, hop]
      rw [hstep]
      omega
    | other m =>
      have h2 := ih (k + 1) d k
      have hstep : fwdAux ops (n + 1 + 1) k d e
          = fwdAux ops (n + 1) (k + 1) d k := by
        simp [fwdAux, hop]
      rw [hstep]
      omega

/-- Over a suffix with no unmatched `Q` the structural forward scan
never breaks: it runs to the end of the list, leaving `end` at the last
index (or untouched when the suffix is empty). -/
theorem fwd2_safe_run : ∀ (r : List Op) (k d e : Nat), fwdSafe r d = true →
    fwd2 r k d e = (if r.length = 0 then e else k + r.length - 1) := by
  intro r
  induction r with
  | nil => intro k d e _; simp [fwd2]
  | cons o r2 ih =>
    intro k d e h
    cases o with
    | q =>
      simp only [fwdSafe] at h
      rw [show fwd2 (Op.q :: r2) k d e = fwd2 r2 (k + 1) (d + 1) k from by
        simp [fwd2]]
      rw [ih (k + 1) (d + 1) k h]
      by_cases hz : r2.length = 0
      · simp [hz]
      · rw [if_neg hz, if_neg (by simp)]
        simp only [List.length_cons]
        omega
    | Q =>
      simp only [fwdSafe, Bool.and_eq_true, bne_iff_ne, ne_eq] at h
      rw [show fwd2 (Op.Q :: r2) k d e
          = if d = 0 then k else fwd2 r2 (k + 1) (d - 1) k from by simp [fwd2]]
      rw [if_neg h.1]
      rw [ih (k + 1) (d - 1) k h.2]
      by_cases hz : r2.length = 0
      · simp [hz]
      · rw [if_neg hz, if_neg (by simp)]
        simp only [List.length_cons]
        omega
    | doOp t =>
      simp only [fwdSafe] at h
      rw [show fwd2 (Op.doOp t :: r2) k d e = fwd2 r2 (k + 1) d k from by
        simp [fwd2]]
      rw [ih (k + 1) d k h]
      by_cases hz : r2.length = 0
      · simp [hz]
      · rw [if_neg hz, if_neg (by simp)]
        simp only [List.length_cons]
        omega
    | other m =>
      simp only [fwdSafe] at h
      rw [show fwd2 (Op.other m :: r2) k d e = fwd2 r2 (k + 1) d k from by
        simp [fwd2]]
      rw [ih (k + 1) d k h]
      by_cases hz : r2.length = 0
      · simp [hz]
      · rw [if_neg hz, if_neg (by simp)]
        simp only [List.length_cons]
        omega

/-- A suffix with an unmatched `Q` splits at the first one: the segment
before it replays from the scan's depth to 0, so from depth 0 it is a
balanced segment. -/
theorem fwdSafe_false_split : ∀ (l : List Op) (d : Nat), fwdSafe l d = false →
    ∃ m s, l = m ++ Op.Q :: s ∧ depthRun m d = some 0 := by
  intro l
  induction l with
  | nil => intro d h; simp [fwdSafe] at h
  | cons o r ih =>
    intro d h
    cases o with
    | q =>
      simp only [fwdSafe] at h
      obtain ⟨m, s, he, hd⟩ := ih (d + 1) h
      exact ⟨Op.q :: m, s, by simp [he], by simpa [depthRun] using hd⟩
    | Q =>
      by_cases hd : d = 0
      · exact ⟨[], r, by simp, by simp [depthRun, hd]⟩
      · simp only [fwdSafe] at h
        have hb : (d != 0) = true := bne_iff_ne.mpr hd
        rw [hb] at h
        simp only [Bool.true_and] at h
        obtain ⟨m, s, he, hdr⟩ := ih (d - 1) h
        refine ⟨Op.Q :: m, s, by simp [he], ?_⟩
        simp [depthRun, hd, hdr]
    | doOp t =>
      simp only [fwdSafe] at h
      obtain ⟨m, s, he, hd2⟩ := ih d h
      exact ⟨Op.doOp t :: m, s, by simp [he], by simpa [depthRun] using hd2⟩
    | other n =>
      simp only [fwdSafe] at h
      obtain ⟨m, s, he, hd2⟩ := ih d h
      exact ⟨Op.other n :: m, s, by simp [he], by simpa [depthRun] using hd2⟩

/-- Deleting the bracket span around the call removes exactly the
enclosing `q … Q` bracket. -/
theorem delSpan_bracket (p m1 m2 s : List Op) (t : String) :
    delSpan (p ++ Op.q :: (m1 ++ Op.doOp t :: (m2 ++ Op.Q :: s))) p.length
      (p.length + m1.length + m2.length + 2) = p ++ s := by
  unfold delSpan
  congr 1
  · exact List.take_left p _
  · have h1 : p.length + m1.length + m2.length + 2 + 1
        = p.length + (m1.length + m2.length + 3) := by omega
    rw [h1, List.drop_append]
    have h2 : m1.length + m2.length + 3 = (m1.length + m2.length + 2) + 1 := by
      omega
    rw [h2, List.drop_succ_cons]
    have h3 : m1.length + m2.length + 2 = m1.length + (m2.length + 2) := by omega
    rw [h3, List.drop_append]
    have h4 : m2.length + 2 = (m2.length + 1) + 1 := by omega
    rw [h4, List.drop_succ_cons]
    have h5 : m2.length + 1 = m2.length + 1 := rfl
    rw [List.drop_append 1, List.drop_succ_cons]
    rfl

/-! ## The main loop -/

/-- The loop ends as soon as the index reaches the length. -/
theorem stripFuel_stop (targets : List String) (f : Nat) (ops : List Op) (i r : Nat)
    (h : ops.length ≤ i) : stripFuel targets f ops i r = (ops, r) := by
  cases f with
  | zero => rfl
  | succ f => simp [stripFuel, Nat.not_lt.mpr h]

/-- A list without target drawing calls passes through the loop
unchanged, whatever the fuel, index and counter. -/
theorem stripFuel_noHit (targets : List String) (ops : List Op)
    (h : ∀ o ∈ ops, isHit targets o = false) :
    ∀ f i r, stripFuel targets f ops i r = (ops, r) := by
  intro f
  induction f with
  | zero => intro i r; rfl
  | succ f ih =>
    intro i r
    by_cases hi : i < ops.length
    · have hh : isHit targets (opAt ops i) = false := h _ (opAt_mem ops i hi)
      simp [stripFuel, hi, hh, ih]
    · simp [stripFuel, hi]

/-- The loop walks over `k` consecutive non-target operators, spending
`k` fuel and advancing the index by `k`. -/
theorem stripFuel_walk (targets : List String) (ops : List Op) :
    ∀ (k f i r : Nat),
      (∀ j, i ≤ j → j < i + k → isHit targets (opAt ops j) = false) →
      stripFuel targets (f + k) ops i r = stripFuel targets f ops (i + k) r := by
  intro k
  induction k with
  | zero => intro f i r _; rfl
  | succ k ih =>
    intro f i r h
    by_cases hi : i < ops.length
    · have hh : isHit targets (opAt ops i) = false := h i le_rfl (by omega)
      calc stripFuel targets (f + (k + 1)) ops i r
          = stripFuel targets (f + k) ops (i + 1) r := by
            simp [stripFuel, hi, hh]
        _ = stripFuel targets f ops (i + 1 + k) r :=
            ih f (i + 1) r (fun j hj1 hj2 => h j (by omega) (by omega))
        _ = stripFuel targets f ops (i + (k + 1)) r := by
            congr 1
            omega
    · rw [stripFuel_stop _ _ _ _ _ (by omega), stripFuel_stop _ _ _ _ _ (by omega)]

/-- One hit iteration of the loop: delete the span and continue at the
same index with the counter incremented. -/
theorem stripFuel_hit (targets : List String) (f : Nat) (ops : List Op) (i r : Nat)
    (hi : i < ops.length) (hh : isHit targets (opAt ops i) = true) :
    stripFuel targets (f + 1) ops i r
      = stripFuel targets f (delSpan ops (findStart ops i) (findEnd ops i)) i (r + 1) := by
  simp [stripFuel, hi, hh]

/-! ## Balance preservation of one removal step (claim C4's core) -/

/-- Deleting the span the two walks select at a drawing call of a
balanced stream leaves a balanced stream: the span is either the
innermost complete bracket around the call or the call plus the whole
balanced suffix. -/
theorem delSpan_balanced (l : List Op) (hb : balanced l = true) (i : Nat) (t : String)
    (hi : i < l.length) (ht : opAt l i = Op.doOp t) :
    balanced (delSpan l (findStart l i) (findEnd l i)) = true := by
  have hbal : Bal l := balanced_Bal l (by simpa [balanced] using hb)
  rcases bal_decomp l hbal i t hi ht with
    ⟨p, m1, m2, s, heq, hb1, hb2, hidx⟩ | ⟨p, s, heq, hbp, hbs, hidx⟩
  · subst heq
    subst hidx
    have hdrop : (p ++ Op.q :: (m1 ++ Op.doOp t :: (m2 ++ Op.Q :: s))).drop
        (p.length + m1.length + 1 + 1) = m2 ++ Op.Q :: s := by
      have h1 : p.length + m1.length + 1 + 1 = p.length + (m1.length + 2) := by
        omega
      rw [h1, List.drop_append]
      have h2 : m1.length + 2 = (m1.length + 1) + 1 := by omega
      rw [h2, List.drop_succ_cons]
      rw [List.drop_append 1, List.drop_succ_cons]
      rfl
    rw [findStart_at p m1 _ hb1,
      findEnd_at _ m2 s (p.length + m1.length + 1) (by simp; omega) hdrop hb2]
    have harg : p.length + m1.length + 1 + m2.length + 1
        = p.length + m1.length + m2.length + 2 := by omega
    rw [harg, delSpan_bracket p m1 m2 s t]
    simp only [balanced, beq_iff_eq] at hb ⊢
    rw [depthRun_append] at hb
    cases hp : depthRun p 0 with
    | none => rw [hp] at hb; simp at hb
    | some dp =>
      rw [hp] at hb
      simp only [Option.some_bind] at hb
      rw [show depthRun (Op.q :: (m1 ++ Op.doOp t :: (m2 ++ Op.Q :: s))) dp
          = depthRun (m1 ++ Op.doOp t :: (m2 ++ Op.Q :: s)) (dp + 1) from by
        simp [depthRun]] at hb
      rw [depthRun_append, Bal_depthRun m1 hb1 (dp + 1)] at hb
      simp only [Option.some_bind] at hb
      rw [show depthRun (Op.doOp t :: (m2 ++ Op.Q :: s)) (dp + 1)
          = depthRun (m2 ++ Op.Q :: s) (dp + 1) from by simp [depthRun]] at hb
      rw [depthRun_append, Bal_depthRun m2 hb2 (dp + 1)] at hb
      simp only [Option.some_bind] at hb
      rw [show depthRun (Op.Q :: s) (dp + 1) = depthRun s dp from by
        simp [depthRun]] at hb
      rw [depthRun_append, hp]
      simpa using hb
  · subst heq
    subst hidx
    have htake : (p ++ Op.doOp t :: s).take p.length = p := List.take_left p _
    have hdrop : (p ++ Op.doOp t :: s).drop (p.length + 1) = s := by
      rw [List.drop_append 1, List.drop_succ_cons]
      rfl
    rw [findStart_bal_take _ p _ (by simp) htake hbp,
      findEnd_bal_drop _ s p.length (by simp) hdrop hbs]
    by_cases hz : s.length = 0
    · rw [if_pos hz]
      unfold delSpan
      rw [htake, hdrop]
      exact Bal_balanced _ (Bal_append p s hbp hbs)
    · rw [if_neg hz]
      unfold delSpan
      rw [htake]
      have hnil : (p ++ Op.doOp t :: s).drop (p.length + s.length + 1) = [] := by
        apply List.drop_eq_nil_of_le
        simp
        omega
      have harg : p.length + s.length + 1 = p.length + s.length + 1 := rfl
      rw [show p.length + s.length + 1 = p.length + s.length + 1 from rfl] at hnil
      rw [hnil]
      simpa using Bal_balanced p hbp

/-- Every iteration of the loop preserves counting balance of the
operator list. -/
theorem stripFuel_balanced (targets : List String) :
    ∀ (f : Nat) (ops : List Op) (i r : Nat), balanced ops = true →
      balanced (stripFuel targets f ops i r).1 = true := by
  intro f
  induction f with
  | zero => intro ops i r h; exact h
  | succ f ih =>
    intro ops i r h
    by_cases hi : i < ops.length
    · cases hh : isHit targets (opAt ops i) with
      | false =>
        simp only [stripFuel, hi, if_true, hh, Bool.false_eq_true, if_false]
        exact ih ops (i + 1) r h
      | true =>
        have ht : ∃ t, opAt ops i = Op.doOp t := by
          cases hop : opAt ops i with
          | doOp t => exact ⟨t, rfl⟩
          | q => rw [hop] at hh; simp [isHit] at hh
          | Q => rw [hop] at hh; simp [isHit] at hh
          | other n => rw [hop] at hh; simp [isHit] at hh
        obtain ⟨t, ht⟩ := ht
        rw [stripFuel_hit targets f ops i r hi hh]
        exact ih _ i (r + 1) (delSpan_balanced ops h i t hi ht)
    · rw [stripFuel_stop _ _ _ _ _ (by omega)]
      exact h

/-- Membership form of `hitFree`. -/
theorem hitFree_mem (targets : List String) (l : List Op)
    (h : hitFree targets l = true) : ∀ o ∈ l, isHit targets o = false := by
  intro o ho
  have h2 := (List.all_eq_true.mp h) o ho
  simpa using h2

/-- Claim C1: when a target drawing call is wrapped in a single balanced
`q … Do … Q` bracket (balanced segments between the brackets and the
call, and no other target drawing call anywhere), `strip_draw_commands`
removes exactly the operators from the enclosing `q` through its matching
`Q` inclusive and leaves every operator outside the bracket unchanged. -/
theorem c1_single_bracket_excision (targets : List String) (t : String)
    (p m1 m2 s : List Op)
    (ht : targets.contains t = true)
    (hb1 : balanced m1 = true) (hb2 : balanced m2 = true)
    (hp : hitFree targets p = true) (h1 : hitFree targets m1 = true)
    (hs : hitFree targets s = true) :
    strip_draw_commands targets
      (p ++ Op.q :: (m1 ++ Op.doOp t :: (m2 ++ Op.Q :: s))) = (p ++ s, 1) := by
  have hbm1 : Bal m1 := balanced_Bal m1 (by simpa [balanced] using hb1)
  have hbm2 : Bal m2 := balanced_Bal m2 (by simpa [balanced] using hb2)
  have hlen : (p ++ Op.q :: (m1 ++ Op.doOp t :: (m2 ++ Op.Q :: s))).length
      = p.length + m1.length + m2.length + s.length + 3 := by simp; omega
  have hnohit : ∀ j, j < p.length + m1.length + 1 →
      isHit targets
        (opAt (p ++ Op.q :: (m1 ++ Op.doOp t :: (m2 ++ Op.Q :: s))) j) = false := by
    intro j hj
    by_cases h1j : j < p.length
    · rw [opAt_append_left _ _ _ h1j]
      exact hitFree_mem _ _ hp _ (opAt_mem p j h1j)
    · by_cases h2j : j = p.length
      · subst h2j
        have h0 := opAt_append_right p
          (Op.q :: (m1 ++ Op.doOp t :: (m2 ++ Op.Q :: s))) 0
        rw [Nat.add_zero] at h0
        rw [h0]
        rfl
      · have hj3 : j = p.length + ((j - p.length - 1) + 1) := by omega
        rw [hj3, opAt_append_right]
        have h4 : opAt (Op.q :: (m1 ++ Op.doOp t :: (m2 ++ Op.Q :: s)))
            ((j - p.length - 1) + 1)
            = opAt (m1 ++ Op.doOp t :: (m2 ++ Op.Q :: s)) (j - p.length - 1) := by
          simp [opAt]
        rw [h4]
        have hlt : j - p.length - 1 < m1.length := by omega
        rw [opAt_append_left _ _ _ hlt]
        exact hitFree_mem _ _ h1 _ (opAt_mem m1 _ hlt)
  have hopi : opAt (p ++ Op.q :: (m1 ++ Op.doOp t :: (m2 ++ Op.Q :: s)))
      (p.length + m1.length + 1) = Op.doOp t := by
    have hh1 : p.length + m1.length + 1 = p.length + (m1.length + 1) := by omega
    rw [hh1, opAt_append_right]
    have hh2 : opAt (Op.q :: (m1 ++ Op.doOp t :: (m2 ++ Op.Q :: s))) (m1.length + 1)
        = opAt (m1 ++ Op.doOp t :: (m2 ++ Op.Q :: s)) m1.length := by
      simp [opAt]
    rw [hh2]
    have hh3 : m1.length = m1.length + 0 := by omega
    rw [hh3, opAt_append_right]
    rfl
  have hfuel1 : 2 * (p ++ Op.q :: (m1 ++ Op.doOp t :: (m2 ++ Op.Q :: s))).length + 1
      = (2 * (p ++ Op.q :: (m1 ++ Op.doOp t :: (m2 ++ Op.Q :: s))).length + 1
          - (p.length + m1.length + 1)) + (p.length + m1.length + 1) := by
    omega
  rw [strip_draw_commands, hfuel1]
  rw [stripFuel_walk targets _ (p.length + m1.length + 1) _ 0 0
    (fun j _ hj2 => hnohit j (by omega))]
  rw [show 0 + (p.length + m1.length + 1) = p.length + m1.length + 1 from by omega]
  rw [show 2 * (p ++ Op.q :: (m1 ++ Op.doOp t :: (m2 ++ Op.Q :: s))).length + 1
      - (p.length + m1.length + 1)
      = (2 * (p ++ Op.q :: (m1 ++ Op.doOp t :: (m2 ++ Op.Q :: s))).length
          - (p.length + m1.length + 1)) + 1 from by omega]
  rw [stripFuel_hit targets _ _ _ _ (by omega) (by rw [hopi]; exact ht)]
  rw [findStart_at p m1 _ hbm1]
  have hdrop : (p ++ Op.q :: (m1 ++ Op.doOp t :: (m2 ++ Op.Q :: s))).drop
      (p.length + m1.length + 1 + 1) = m2 ++ Op.Q :: s := by
    have hh1 : p.length + m1.length + 1 + 1 = p.length + (m1.length + 2) := by omega
    rw [hh1, List.drop_append]
    have hh2 : m1.length + 2 = (m1.length + 1) + 1 := by omega
    rw [hh2, List.drop_succ_cons]
    rw [List.drop_append 1, List.drop_succ_cons]
    rfl
  rw [findEnd_at _ m2 s (p.length + m1.length + 1) (by omega) hdrop hbm2]
  rw [show p.length + m1.length + 1 + m2.length + 1
      = p.length + m1.length + m2.length + 2 from by omega]
  rw [delSpan_bracket p m1 m2 s t]
  apply stripFuel_noHit
  intro o ho
  rcases List.mem_append.mp ho with hop | hos
  · exact hitFree_mem _ _ hp _ hop
  · exact hitFree_mem _ _ hs _ hos

/-- Witness for C1 at a concrete stream: one operator before the bracket,
a nested empty bracket inside it, one operator between call and close,
one after. -/
theorem c1_single_bracket_excision_witness :
    strip_draw_commands ["T"]
      ([Op.other 1] ++ Op.q :: ([Op.q, Op.Q] ++ Op.doOp "T" ::
        ([Op.other 2] ++ Op.Q :: [Op.other 3])))
      = ([Op.other 1] ++ [Op.other 3], 1) :=
  c1_single_bracket_excision ["T"] "T" [Op.other 1] [Op.q, Op.Q] [Op.other 2]
    [Op.other 3] (by decide) (by decide) (by decide) (by decide) (by decide)
    (by decide)

/-- Claim C2 (code bug): on `q Do(T) Q Do(T)` the loop deletes the
bracket `[0,3] … [0,2]` and resumes at the unadjusted index 1, skipping
the second target call, which had shifted to index 0 and survives. -/
theorem c2_skip_after_removal :
    strip_draw_commands ["T"] [Op.q, Op.doOp "T", Op.Q, Op.doOp "T"]
      = ([Op.doOp "T"], 1) ∧ isHit ["T"] (Op.doOp "T") = true := by decide

/-- Claim C3 counterexample: a top-level target call followed by another
operator.  The backward walk degrades the start to the call's index, but
the forward walk still consumes the rest of the list: the trailing
operator is removed too, refuting the single-operator-removal claim. -/
theorem c3_counterexample :
    noEnclosingSave [Op.doOp "T", Op.other 1] 0 = true ∧
    strip_draw_commands ["T"] [Op.doOp "T", Op.other 1] = ([], 1) ∧
    strip_draw_commands ["T"] [Op.doOp "T", Op.other 1] ≠ ([Op.other 1], 1) := by
  decide

/-- Claim C3 (amended): with no enclosing unmatched `q` before the
target call at `i`, the removal start degrades to `i` itself, but the
forward walk still extends the removal end: to the first unmatched `Q`
after `i` (the `Q` following a balanced segment; such a decomposition
exists exactly when the suffix has an unmatched `Q`), or to the last
operator of the stream when the suffix has none.  Consequently the
removal is the single operator at `i` — deleting `[i, end]` touches
nothing else — exactly when the call is the last operator, and in that
case `strip_draw_commands` removes precisely it. -/
theorem c3_no_enclosing_save (targets : List String) (ops : List Op) (i : Nat)
    (t : String)
    (hi : i < ops.length)
    (hop : opAt ops i = Op.doOp t)
    (ht : targets.contains t = true)
    (hpre : hitFree targets (ops.take i) = true)
    (hsafe : noEnclosingSave ops i = true) :
    findStart ops i = i ∧
    (∀ m2 s, ops.drop (i + 1) = m2 ++ Op.Q :: s → balanced m2 = true →
      findEnd ops i = i + m2.length + 1) ∧
    (fwdSafe (ops.drop (i + 1)) 0 = true →
      findEnd ops i = (if i + 1 = ops.length then i else ops.length - 1)) ∧
    (fwdSafe (ops.drop (i + 1)) 0 = false →
      ∃ m2 s, ops.drop (i + 1) = m2 ++ Op.Q :: s ∧ balanced m2 = true) ∧
    (delSpan ops (findStart ops i) (findEnd ops i)
        = ops.take i ++ ops.drop (i + 1) ↔ i + 1 = ops.length) ∧
    (i + 1 = ops.length → strip_draw_commands targets ops = (ops.take i, 1)) := by
  have hstart : findStart ops i = i := findStart_safe ops i (by omega) hsafe
  refine ⟨hstart, ?_, ?_, ?_, ?_, ?_⟩
  · intro m2 s hdrop hbal2
    exact findEnd_at ops m2 s i (by omega) hdrop
      (balanced_Bal m2 (by simpa [balanced] using hbal2))
  · intro hsafe2
    rw [findEnd, fwdAux_eq_fwd2 ops _ _ _ _ (by omega),
      fwd2_safe_run _ _ _ _ hsafe2, List.length_drop]
    by_cases hz : i + 1 = ops.length
    · rw [if_pos (by omega), if_pos hz]
    · rw [if_neg (by omega), if_neg hz]
      omega
  · intro hsafe2
    obtain ⟨m2, s, he, hd⟩ := fwdSafe_false_split (ops.drop (i + 1)) 0 hsafe2
    exact ⟨m2, s, he, by simp [balanced, hd]⟩
  · rw [hstart]
    constructor
    · intro hdel
      by_contra hne
      have hlt : i + 1 < ops.length := by omega
      have hge : i + 1 ≤ findEnd ops i := by
        rw [findEnd,
          show ops.length - (i + 1) = (ops.length - (i + 1) - 1) + 1 from by omega]
        exact fwdAux_ge ops _ (i + 1) 0 i
      have hlen := congrArg List.length hdel
      simp only [delSpan, List.length_append, List.length_take,
        List.length_drop] at hlen
      omega
    · intro hlast
      rw [findEnd_last ops i hlast]
      rfl
  · intro hlast
    have hstart2 := hstart
    have hlen2 : (ops.take i).length = i := by
      rw [List.length_take]
      omega
    have hnohit : ∀ j, j < i → isHit targets (opAt ops j) = false := by
      intro j hj
      have hj2 : j < (ops.take i).length := by omega
      have hoa : opAt ops j = opAt (ops.take i) j := by
        conv_lhs => rw [(List.take_append_drop i ops).symm]
        exact opAt_append_left _ _ _ hj2
      rw [hoa]
      exact hitFree_mem _ _ hpre _ (opAt_mem _ _ hj2)
    rw [strip_draw_commands]
    rw [show 2 * ops.length + 1 = (2 * ops.length + 1 - i) + i from by omega]
    rw [stripFuel_walk targets ops i _ 0 0 (fun j _ hj2 => hnohit j (by omega))]
    rw [show (0 : Nat) + i = i from by omega]
    rw [show 2 * ops.length + 1 - i = (2 * ops.length - i) + 1 from by omega]
    rw [stripFuel_hit targets _ ops i 0 hi (by rw [hop]; exact ht)]
    rw [hstart2, findEnd_last ops i hlast]
    have hds : delSpan ops i i = ops.take i := by
      unfold delSpan
      rw [List.drop_eq_nil_of_le (by omega)]
      simp
    rw [hds]
    exact stripFuel_stop targets _ _ i 1 (by omega)

/-- Witness for the amended C3 at `[Do T, other, Q, other]`: the call at
index 0 has no enclosing save, so the start degrades to 0; the forward
walk extends the end to the first unmatched `Q` at index 2 (across the
balanced segment `[other 1]`), so the removal is not the single operator
at index 0. -/
theorem c3_no_enclosing_save_witness :
    findStart [Op.doOp "T", Op.other 1, Op.Q, Op.other 2] 0 = 0 ∧
    findEnd [Op.doOp "T", Op.other 1, Op.Q, Op.other 2] 0 = 0 + 1 + 1 ∧
    ¬ (delSpan [Op.doOp "T", Op.other 1, Op.Q, Op.other 2]
        (findStart [Op.doOp "T", Op.other 1, Op.Q, Op.other 2] 0)
        (findEnd [Op.doOp "T", Op.other 1, Op.Q, Op.other 2] 0)
      = List.take 0 [Op.doOp "T", Op.other 1, Op.Q, Op.other 2]
        ++ List.drop 1 [Op.doOp "T", Op.other 1, Op.Q, Op.other 2]) := by
  have h := c3_no_enclosing_save ["T"] [Op.doOp "T", Op.other 1, Op.Q, Op.other 2]
    0 "T" (by decide) (by decide) (by decide) (by decide) (by decide)
  refine ⟨h.1, h.2.1 [Op.other 1] [Op.other 2] (by decide) (by decide), ?_⟩
  intro hdel
  exact absurd (h.2.2.2.2.1.mp hdel) (by decide)

/-- Claim C4: on a balanced content stream `strip_draw_commands` keeps
the stream balanced — every deleted span is a complete bracket or a
balanced suffix, so counting balance is an invariant of every removal
step of the loop. -/
theorem c4_balance_invariant (targets : List String) (ops : List Op)
    (hb : balanced ops = true) :
    balanced (strip_draw_commands targets ops).1 = true := by
  rw [strip_draw_commands]
  exact stripFuel_balanced targets _ ops 0 0 hb

/-- Witness for C4 on a balanced stream with one excision. -/
theorem c4_balance_invariant_witness :
    balanced (strip_draw_commands ["T"]
      [Op.q, Op.doOp "T", Op.Q, Op.q, Op.other 0, Op.Q]).1 = true :=
  c4_balance_invariant ["T"]
    [Op.q, Op.doOp "T", Op.Q, Op.q, Op.other 0, Op.Q] (by decide)

/-! ## Lemmas: ordered dictionaries -/

/-- Looking up the key just set yields the new value. -/
theorem lookup_setKey_self (k : String) (v : Val) (d : List (String × Val)) :
    List.lookup k (setKey k v d) = some v := by
  induction d with
  | nil => simp [setKey, List.lookup]
  | cons kv r ih =>
    obtain ⟨k1, v1⟩ := kv
    by_cases h : k1 = k
    · subst h
      simp [setKey, List.lookup]
    · have hb1 : (k1 == k) = false := beq_eq_false_iff_ne.mpr h
      have hb2 : (k == k1) = false := beq_eq_false_iff_ne.mpr (fun e => h e.symm)
      simp [setKey, List.lookup, hb1, hb2, ih]

/-- Setting a different key does not change a lookup. -/
theorem lookup_setKey_other (k k2 : String) (hne : k ≠ k2) (v : Val)
    (d : List (String × Val)) :
    List.lookup k (setKey k2 v d) = List.lookup k d := by
  have hbk : (k == k2) = false := beq_eq_false_iff_ne.mpr hne
  induction d with
  | nil => simp [setKey, List.lookup, hbk]
  | cons kv r ih =>
    obtain ⟨k1, v1⟩ := kv
    by_cases h : k1 = k2
    · subst h
      simp [setKey, List.lookup, hbk]
    · have hb1 : (k1 == k2) = false := beq_eq_false_iff_ne.mpr h
      cases hkk : k == k1 <;> simp [setKey, List.lookup, hb1, hkk, ih]

/-- Looking up a deleted key yields nothing. -/
theorem lookup_delKey_self (k : String) (d : List (String × Val)) :
    List.lookup k (delKey k d) = none := by
  induction d with
  | nil => rfl
  | cons kv r ih =>
    obtain ⟨k1, v1⟩ := kv
    by_cases h : k1 = k
    · subst h
      simpa [delKey] using ih
    · have hb1 : (k1 != k) = true := bne_iff_ne.mpr h
      have hb2 : (k == k1) = false := beq_eq_false_iff_ne.mpr (fun e => h e.symm)
      simp only [delKey, List.filter_cons, hb1, if_true] at ih ⊢
      simpa [List.lookup, hb2] using ih

/-- Deleting a different key does not change a lookup. -/
theorem lookup_delKey_other (k k2 : String) (hne : k ≠ k2)
    (d : List (String × Val)) :
    List.lookup k (delKey k2 d) = List.lookup k d := by
  induction d with
  | nil => rfl
  | cons kv r ih =>
    obtain ⟨k1, v1⟩ := kv
    by_cases h : k1 = k2
    · subst h
      have hb2 : (k == k1) = false := beq_eq_false_iff_ne.mpr hne
      simp only [delKey] at ih
      simp [delKey, List.lookup, hb2, ih]
    · have hb1 : (k1 != k2) = true := bne_iff_ne.mpr h
      simp only [delKey] at ih
      cases hkk : k == k1 <;> simp [delKey, List.lookup, hb1, hkk, ih]

/-- Setting a key to the value it already has leaves the dictionary
unchanged (assignment replaces in place). -/
theorem setKey_lookup_id (k : String) (v : Val) (d : List (String × Val))
    (h : List.lookup k d = some v) : setKey k v d = d := by
  induction d with
  | nil => simp [List.lookup] at h
  | cons kv r ih =>
    obtain ⟨k1, v1⟩ := kv
    by_cases hk : k = k1
    · subst hk
      simp [List.lookup] at h
      simp [setKey, h]
    · have hb1 : (k == k1) = false := beq_eq_false_iff_ne.mpr hk
      have hb2 : (k1 == k) = false := beq_eq_false_iff_ne.mpr (fun e => hk e.symm)
      simp only [List.lookup, hb1] at h
      simp [setKey, hb2, ih h]

/-- Deleting an absent key leaves the dictionary unchanged. -/
theorem delKey_id (k : String) (d : List (String × Val))
    (h : List.lookup k d = none) : delKey k d = d := by
  induction d with
  | nil => rfl
  | cons kv r ih =>
    obtain ⟨k1, v1⟩ := kv
    by_cases hk : k = k1
    · subst hk
      simp [List.lookup] at h
    · have hb1 : (k == k1) = false := beq_eq_false_iff_ne.mpr hk
      have hb2 : (k1 != k) = true := bne_iff_ne.mpr (fun e => hk e.symm)
      simp only [List.lookup, hb1] at h
      have ih2 := ih h
      simp only [delKey] at ih2 ⊢
      simp [List.filter_cons, hb2, ih2]

/-- The nine dictionary entries `scrub_gamma_images` promises. -/
theorem scrubDict_lookups (d : List (String × Val)) :
    List.lookup "/Width" (scrubDict d) = some (Val.num 1) ∧
    List.lookup "/Height" (scrubDict d) = some (Val.num 1) ∧
    List.lookup "/BitsPerComponent" (scrubDict d) = some (Val.num 8) ∧
    List.lookup "/ColorSpace" (scrubDict d) = some (Val.name "/DeviceRGB") ∧
    List.lookup "/Length" (scrubDict d) = some (Val.num 3) ∧
    List.lookup "/Filter" (scrubDict d) = none ∧
    List.lookup "/DecodeParms" (scrubDict d) = none ∧
    List.lookup "/SMask" (scrubDict d) = none ∧
    List.lookup "/Mask" (scrubDict d) = none := by
  unfold scrubDict
  refine ⟨?_, ?_, ?_, ?_, ?_, ?_, ?_, ?_, ?_⟩
  · rw [lookup_delKey_other _ _ (by decide), lookup_delKey_other _ _ (by decide),
      lookup_delKey_other _ _ (by decide), lookup_delKey_other _ _ (by decide),
      lookup_setKey_other _ _ (by decide), lookup_setKey_other _ _ (by decide),
      lookup_setKey_other _ _ (by decide), lookup_setKey_other _ _ (by decide),
      lookup_setKey_self]
  · rw [lookup_delKey_other _ _ (by decide), lookup_delKey_other _ _ (by decide),
      lookup_delKey_other _ _ (by decide), lookup_delKey_other _ _ (by decide),
      lookup_setKey_other _ _ (by decide), lookup_setKey_other _ _ (by decide),
      lookup_setKey_other _ _ (by decide), lookup_setKey_self]
  · rw [lookup_delKey_other _ _ (by decide), lookup_delKey_other _ _ (by decide),
      lookup_delKey_other _ _ (by decide), lookup_delKey_other _ _ (by decide),
      lookup_setKey_other _ _ (by decide), lookup_setKey_other _ _ (by decide),
      lookup_setKey_self]
  · rw [lookup_delKey_other _ _ (by decide), lookup_delKey_other _ _ (by decide),
      lookup_delKey_other _ _ (by decide), lookup_delKey_other _ _ (by decide),
      lookup_setKey_other _ _ (by decide), lookup_setKey_self]
  · rw [lookup_delKey_other _ _ (by decide), lookup_delKey_other _ _ (by decide),
      lookup_delKey_other _ _ (by decide), lookup_delKey_other _ _ (by decide),
      lookup_setKey_self]
    decide
  · rw [lookup_delKey_other _ _ (by decide), lookup_delKey_other _ _ (by decide),
      lookup_delKey_other _ _ (by decide), lookup_delKey_self]
  · rw [lookup_delKey_other _ _ (by decide), lookup_delKey_other _ _ (by decide),
      lookup_delKey_self]
  · rw [lookup_delKey_other _ _ (by decide), lookup_delKey_self]
  · rw [lookup_delKey_self]

/-- A dictionary that already carries the scrub's five values and lacks
its four deleted keys is a fixed point of the rewrite. -/
theorem scrubDict_fixed (d : List (String × Val))
    (hw : List.lookup "/Width" d = some (Val.num 1))
    (hh : List.lookup "/Height" d = some (Val.num 1))
    (hb : List.lookup "/BitsPerComponent" d = some (Val.num 8))
    (hc : List.lookup "/ColorSpace" d = some (Val.name "/DeviceRGB"))
    (hl : List.lookup "/Length" d = some (Val.num 3))
    (hf : List.lookup "/Filter" d = none)
    (hdp : List.lookup "/DecodeParms" d = none)
    (hsm : List.lookup "/SMask" d = none)
    (hmk : List.lookup "/Mask" d = none) :
    scrubDict d = d := by
  have hl2 : List.lookup "/Length" d
      = some (Val.num (BLANK_PIXEL.length : Int)) := by rw [hl]; decide
  unfold scrubDict
  rw [setKey_lookup_id _ _ _ hw, setKey_lookup_id _ _ _ hh,
    setKey_lookup_id _ _ _ hb, setKey_lookup_id _ _ _ hc,
    setKey_lookup_id _ _ _ hl2, delKey_id _ _ hf, delKey_id _ _ hdp,
    delKey_id _ _ hsm, delKey_id _ _ hmk]

/-- The dictionary rewrite is idempotent. -/
theorem scrubDict_idem (d : List (String × Val)) :
    scrubDict (scrubDict d) = scrubDict d := by
  obtain ⟨hw, hh, hb, hc, hl, hf, hdp, hsm, hmk⟩ := scrubDict_lookups d
  exact scrubDict_fixed _ hw hh hb hc hl hf hdp hsm hmk

/-- Claim C5: scrubbing a targeted image is idempotent, and one scrub
leaves exactly the promised object: the 3-byte blank payload, 1×1
dimensions, 8 bits per component, `/DeviceRGB`, `/Length 3`, and no
`/Filter`, `/DecodeParms`, `/SMask` or `/Mask`. -/
theorem c5_scrub_idempotent (img : ImgObj) :
    scrubImage (scrubImage img) = scrubImage img ∧
    (scrubImage img).data = BLANK_PIXEL ∧ BLANK_PIXEL.length = 3 ∧
    List.lookup "/Width" (scrubImage img).dict = some (Val.num 1) ∧
    List.lookup "/Height" (scrubImage img).dict = some (Val.num 1) ∧
    List.lookup "/BitsPerComponent" (scrubImage img).dict = some (Val.num 8) ∧
    List.lookup "/ColorSpace" (scrubImage img).dict = some (Val.name "/DeviceRGB") ∧
    List.lookup "/Length" (scrubImage img).dict = some (Val.num 3) ∧
    List.lookup "/Filter" (scrubImage img).dict = none ∧
    List.lookup "/DecodeParms" (scrubImage img).dict = none ∧
    List.lookup "/SMask" (scrubImage img).dict = none ∧
    List.lookup "/Mask" (scrubImage img).dict = none := by
  obtain ⟨hw, hh, hb, hc, hl, hf, hdp, hsm, hmk⟩ := scrubDict_lookups img.dict
  refine ⟨?_, rfl, rfl, hw, hh, hb, hc, hl, hf, hdp, hsm, hmk⟩
  unfold scrubImage
  simp [scrubDict_idem]

/-- Claim C9: an annotation is a removal target exactly when it carries
an `/A` action whose `/URI` entry is a string object (pypdf text strings
and name objects are the `str` instances) whose lowercasing contains the
marker domain. -/
theorem c9_annotation_target_iff (annot : Annot) :
    shouldRemoveAnnot annot = true ↔
      ∃ d u, annot.action = some d ∧
        (List.lookup "/URI" d = some (Val.str u) ∨
          List.lookup "/URI" d = some (Val.name u)) ∧
        strContains (toLowerStr u) GAMMA_HOST = true := by
  obtain ⟨act⟩ := annot
  constructor
  · intro h
    cases act with
    | none => simp [shouldRemoveAnnot] at h
    | some d =>
      simp only [shouldRemoveAnnot] at h
      by_cases he : d.isEmpty
      · rw [if_pos he] at h; simp at h
      · rw [if_neg he] at h
        cases hu : List.lookup "/URI" d with
        | none => rw [hu] at h; simp at h
        | some v =>
          rw [hu] at h
          cases v with
          | str u => exact ⟨d, u, rfl, Or.inl hu, h⟩
          | name u => exact ⟨d, u, rfl, Or.inr hu, h⟩
          | num n => simp at h
  · rintro ⟨d, u, ha, hu, hc⟩
    simp only at ha
    subst ha
    simp only [shouldRemoveAnnot]
    have hne : ¬ d.isEmpty = true := by
      cases d with
      | nil =>
        rcases hu with hu | hu <;> simp [List.lookup] at hu
      | cons kv r => simp
    rw [if_neg hne]
    rcases hu with hu | hu <;> rw [hu] <;> exact hc

/-! ## Lemmas: the page loop of `process_pdf` -/

/-- The annotation loop removes nothing when no annotation matches. -/
theorem keepAnnots_noRemove (l : List Annot)
    (h : ∀ a ∈ l, shouldRemoveAnnot a = false) : keepAnnots l = (l, 0) := by
  induction l with
  | nil => rfl
  | cons a r ih =>
    have ha := h a (by simp)
    have ih2 := ih (fun b hb => h b (by simp [hb]))
    simp [keepAnnots, ha, ih2]

/-- A page without target annotations loses none. -/
theorem pageAnnRemoved_zero (p : Page) (h : pageNoGammaAnnot p = true) :
    pageAnnRemoved p = 0 := by
  unfold pageNoGammaAnnot at h
  unfold pageAnnRemoved
  cases hann : p.annots with
  | none => rfl
  | some l =>
    rw [hann] at h
    by_cases he : l.isEmpty
    · simp [he]
    · have h2 : ∀ a ∈ l, shouldRemoveAnnot a = false := by
        intro a ha
        have h3 := List.all_eq_true.mp h a ha
        simpa using h3
      simp [he, keepAnnots_noRemove l h2]

/-- A page without matching images scrubs none. -/
theorem pageImgScrubbed_zero (p : Page) (h : pageNoGammaImg p = true) :
    pageImgScrubbed p = 0 := by
  unfold pageNoGammaImg at h
  unfold pageImgScrubbed
  simp [List.isEmpty_iff.mp h]

/-- Claim C6 counterexample: a PDF whose single page has no image
resource at all — no 575×137 match — but carries a gamma link
annotation.  `process_pdf` reports 1 removal and rewrites the file,
refuting "no matching image implies zero removals". -/
theorem c6_counterexample :
    pageNoGammaImg pageAnnotOnlyEx = true ∧
    (process_pdf [pageAnnotOnlyEx]).total = 1 ∧
    (process_pdf [pageAnnotOnlyEx]).fileWritten = true := by decide

/-- Claim C6 (amended): when no page has a 575×137 image resource and no
page carries a gamma link annotation, `process_pdf` reports zero
removals, performs no rewrite, and the file's pages — annotation lists
included — are unchanged. -/
theorem c6_no_target_no_change (pages : List Page)
    (himg : pages.all pageNoGammaImg = true)
    (hann : pages.all pageNoGammaAnnot = true) :
    process_pdf pages = { outPages := pages, total := 0, fileWritten := false } := by
  have hA : ∀ p ∈ pages, pageAnnRemoved p = 0 := fun p hp =>
    pageAnnRemoved_zero p (List.all_eq_true.mp hann p hp)
  have hI : ∀ p ∈ pages, pageImgScrubbed p = 0 := fun p hp =>
    pageImgScrubbed_zero p (List.all_eq_true.mp himg p hp)
  have hsumA : ((pages.map processPage).map (fun x => x.2.1)).sum = 0 := by
    apply List.sum_eq_zero
    intro x hx
    simp only [List.map_map, List.mem_map] at hx
    obtain ⟨p, hp, hxe⟩ := hx
    rw [← hxe]
    exact hA p hp
  have hsumI : ((pages.map processPage).map (fun x => x.2.2.1)).sum = 0 := by
    apply List.sum_eq_zero
    intro x hx
    simp only [List.map_map, List.mem_map] at hx
    obtain ⟨p, hp, hxe⟩ := hx
    rw [← hxe]
    exact hI p hp
  simp only [process_pdf]
  rw [hsumA, hsumI]
  simp

/-- Witness for the amended C6: a clean page passes through unchanged. -/
theorem c6_no_target_no_change_witness :
    process_pdf [pageCleanEx]
      = { outPages := [pageCleanEx], total := 0, fileWritten := false } :=
  c6_no_target_no_change [pageCleanEx] (by decide) (by decide)

/-- Claim C10: the count `process_pdf` returns is annotations removed
plus images scrubbed — excised draw spans are not counted — the file is
rewritten exactly when that sum is positive, and a run that excises a
draw span always rewrites (a span is excised only when the page had a
scrubbed target image). -/
theorem c10_count_and_rewrite (pages : List Page) :
    (process_pdf pages).total
        = (pages.map pageAnnRemoved).sum + (pages.map pageImgScrubbed).sum ∧
    ((process_pdf pages).fileWritten = true ↔ (process_pdf pages).total ≠ 0) ∧
    ((∃ p ∈ pages, 0 < pageStripped p) → (process_pdf pages).fileWritten = true) := by
  have hmapA : (pages.map processPage).map (fun x => x.2.1)
      = pages.map pageAnnRemoved := by
    rw [List.map_map]; rfl
  have hmapI : (pages.map processPage).map (fun x => x.2.2.1)
      = pages.map pageImgScrubbed := by
    rw [List.map_map]; rfl
  have htot : (process_pdf pages).total
      = (pages.map pageAnnRemoved).sum + (pages.map pageImgScrubbed).sum := by
    simp only [process_pdf]
    rw [hmapA, hmapI]
    by_cases h : (pages.map pageAnnRemoved).sum + (pages.map pageImgScrubbed).sum = 0
    · simp [h]
    · simp [h]
  have hwrit : (process_pdf pages).fileWritten = true ↔ (process_pdf pages).total ≠ 0 := by
    simp only [process_pdf]
    rw [hmapA, hmapI]
    by_cases h : (pages.map pageAnnRemoved).sum + (pages.map pageImgScrubbed).sum = 0
    · simp [h]
    · simp [h]
  refine ⟨htot, hwrit, ?_⟩
  rintro ⟨p, hp, hstr⟩
  rw [hwrit, htot]
  have himg : 0 < pageImgScrubbed p := by
    simp only [pageStripped] at hstr
    unfold pageImgScrubbed
    by_cases he : (find_gamma_xobjects p).isEmpty
    · rw [if_pos he] at hstr
      simp at hstr
    · have hne : find_gamma_xobjects p ≠ [] := by
        intro e
        rw [e] at he
        simp at he
      exact List.length_pos.mpr hne
  have hle : pageImgScrubbed p ≤ (pages.map pageImgScrubbed).sum :=
    List.single_le_sum (fun x _ => Nat.zero_le x) _
      (List.mem_map.mpr ⟨p, hp, rfl⟩)
  omega

/-- Voluntary witness for C10: on a page that excises one draw span the
file is indeed rewritten. -/
theorem c10_count_and_rewrite_witness :
    (∃ p ∈ [pageImgEx], 0 < pageStripped p) ∧
    (process_pdf [pageImgEx]).fileWritten = true := by
  have hex : ∃ p ∈ [pageImgEx], 0 < pageStripped p :=
    ⟨pageImgEx, by simp, by decide⟩
  exact ⟨hex, (c10_count_and_rewrite [pageImgEx]).2.2 hex⟩

/-! ## The PPTX layout scrub -/

/-- Claim C7: a PPTX whose slide-layout relationship entries contain no
gamma hyperlink is reported with zero removals and the archive file is
not rewritten. -/
theorem c7_pptx_no_match_unchanged (layouts : List LayoutUnit)
    (h : layouts.all unitNoGammaRel = true) :
    mainPptx layouts = { outLayouts := layouts, total := 0, fileWritten := false } := by
  have hstrip : ∀ u ∈ layouts,
      strip_gamma_from_layout u.layout u.rels = (u.layout, u.rels, false) := by
    intro u hu
    have hu2 := List.all_eq_true.mp h u hu
    unfold unitNoGammaRel at hu2
    cases hr : u.rels with
    | none => simp [strip_gamma_from_layout, hr]
    | some rs =>
      rw [hr] at hu2
      have hall : ∀ r ∈ rs, isGammaRel r = false := by
        intro r hrr
        have h3 := List.all_eq_true.mp hu2 r hrr
        simpa using h3
      have hfil : rs.filter isGammaRel = [] := by
        rw [List.filter_eq_nil_iff]
        intro r hrr
        simp [hall r hrr]
      have hids : collectGammaIds rs = [] := by
        unfold collectGammaIds
        rw [hfil]
        rfl
      simp [strip_gamma_from_layout, hr, hids]
  simp only [mainPptx]
  have houts : (layouts.map (fun u =>
      let r := strip_gamma_from_layout u.layout u.rels
      (if r.2.2 then ({ layout := r.1, rels := r.2.1 } : LayoutUnit) else u, r.2.2)))
      = layouts.map (fun u => (u, false)) := by
    apply List.map_congr_left
    intro u hu
    simp [hstrip u hu]
  rw [houts]
  have hfil2 : (layouts.map (fun u => (u, false))).filter (fun z => z.2) = [] := by
    induction layouts with
    | nil => rfl
    | cons u r ih => simp [ih]
  rw [hfil2]
  simp

/-- Witness for C7: one layout with a non-gamma hyperlink relationship
passes through unchanged. -/
theorem c7_pptx_no_match_unchanged_witness :
    mainPptx [layoutCleanEx]
      = { outLayouts := [layoutCleanEx], total := 0, fileWritten := false } :=
  c7_pptx_no_match_unchanged [layoutCleanEx] (by decide)

/-! ## `unlock_pdf` -/

/-- Claim C8: a missing input file, a correct password on an encrypted
file, and an incorrect password all yield a returned result rather than
an escaping exception; the success case writes every reader page (page
count preserved), the failure case writes nothing and carries a
non-empty human-readable message. -/
theorem c8_unlock_reports (pdf : PdfFile) (pw : String) :
    ((unlock_pdf none pw).ok = false ∧ (unlock_pdf none pw).written = none) ∧
    (pdf.encrypted = true → decryptOk pdf pw = true →
      (unlock_pdf (some pdf) pw).ok = true ∧
      (unlock_pdf (some pdf) pw).written = some pdf.pages ∧
      (unlock_pdf (some pdf) pw).written.map (fun l => l.length)
        = some pdf.pages.length) ∧
    (pdf.encrypted = true → decryptOk pdf pw = false →
      (unlock_pdf (some pdf) pw).ok = false ∧
      (unlock_pdf (some pdf) pw).written = none ∧
      (unlock_pdf (some pdf) pw).message ≠ "") := by
  refine ⟨⟨rfl, rfl⟩, ?_, ?_⟩
  · intro h1 h2
    refine ⟨?_, ?_, ?_⟩ <;> simp [unlock_pdf, h1, h2]
  · intro h1 h2
    refine ⟨?_, ?_, ?_⟩
    · simp [unlock_pdf, h1, h2]
    · simp [unlock_pdf, h1, h2]
    · have hm : (unlock_pdf (some pdf) pw).message
          = "Error: Could not decrypt input. Incorrect password." := by
        simp [unlock_pdf, h1, h2]
      rw [hm]
      decide

/-- Voluntary witness for C8 at a concrete encrypted file: the right
password succeeds, a wrong one fails. -/
theorem c8_unlock_reports_witness :
    (unlock_pdf (some { pages := [7, 9], encrypted := true, password := "pw" })
      "pw").ok = true ∧
    (unlock_pdf (some { pages := [7, 9], encrypted := true, password := "pw" })
      "xx").ok = false := by
  have h1 := (c8_unlock_reports
    { pages := [7, 9], encrypted := true, password := "pw" } "pw").2.1 rfl (by decide)
  have h2 := (c8_unlock_reports
    { pages := [7, 9], encrypted := true, password := "pw" } "xx").2.2 rfl (by decide)
  exact ⟨h1.1, h2.1⟩

